import Mathlib

/-!
Verification development for the `turbokit::HashMap` container
(coalesced hashing with a primary table and a shared collision table).

The embedding instantiates the C++ template at `KeyType = ValueType = size_t`
(modelled as `Nat`; sizes stay far below `2^64` in every modelled scenario,
so `Nat` arithmetic agrees with `size_t` arithmetic), with a caller-supplied
pure hash function `hash : Nat → Nat` and equality as the key predicate.
The two slot arrays are modelled as lists of `Option` entries: `none` is the
EMPTY state that the C++ code represents with the `invalid_marker` sentinel
stored in `chain_length` (primary slots) or `main_index` (collision slots).

Recursion that the C++ realises with loops or with the mutual recursion
`try_insert → reserve → resize_table → try_insert` is modelled with an
explicit fuel parameter; `Res.noFuel` reports fuel exhaustion and is never
produced when the fuel is large enough for the modelled run.
-/

set_option maxHeartbeats 1600000

namespace Turbokit

/-- Outcome of a modelled operation: a normal result, a thrown C++ exception
(`std::range_error` in `reserve`), process termination (`std::abort` in
`resize_table`), or fuel exhaustion of the model. -/
inductive Res (α : Type) where
  | ok (a : α)
  | thrown
  | aborted
  | noFuel
deriving DecidableEq, Repr

/-- Primary-table slot payload (`HashMap::MainEntry`); a slot is live iff the
surrounding `Option` is `some`, mirroring `chain_length != invalid_marker`. -/
structure MainEntry where
  key : Nat
  value : Nat
  chain_length : Nat
deriving DecidableEq, Repr

/-- Collision-table slot payload (`HashMap::CollisionEntry`); a slot is live
iff the surrounding `Option` is `some`, mirroring `main_index != invalid_marker`. -/
structure CollisionEntry where
  key : Nat
  value : Nat
  main_index : Nat
deriving DecidableEq, Repr

/-- The container state: `bucket_count`, `element_count` and the two
equal-length slot arrays.  A null `main_table` in C++ coincides with
`bucket_count = 0` in every reachable state, so the null check
`!main_table` is modelled as `bucket_count = 0`. -/
structure Table where
  bucket_count : Nat
  element_count : Nat
  main_table : List (Option MainEntry)
  collision_table : List (Option CollisionEntry)
deriving DecidableEq, Repr

/-- Read a slot; out-of-range reads yield `none` (they only occur in corners
that are unreachable under the container invariant). -/
def slotAt (l : List (Option α)) (i : Nat) : Option α := l.getD i none

/-- Index masking `x & (bucket_count - 1)`, the code's modular reduction. -/
def mask (cap x : Nat) : Nat := x &&& (cap - 1)

/-- The `HashMap::iterator`: `bucket_index` and `collision_index` model the two
`size_t` fields with `invalid_marker` as `none`; `value_ptr` models the value
pointer as the identity of the slot pointed to (`false` = primary slot,
`true` = collision slot), with `none` for the null pointer. -/
structure Iter where
  bucket_index : Option Nat
  collision_index : Option Nat
  value_ptr : Option (Bool × Nat)
deriving DecidableEq, Repr

/-- The `end()` iterator `iterator(this, 0, 0, nullptr)`. -/
def iterEnd : Iter := ⟨some 0, some 0, none⟩

/-- Scan loop of `find_in_collision_chain`: starting at collision index `idx`,
check `n` further slots (stepping by `(idx + 1) & mask`), returning the first
slot whose `main_index` equals `b` and whose key equals `k`; after `n` misses
return the end iterator of the chain, whose `collision_index` is the index one
past the scanned window. -/
def collision_scan (t : Table) (b k : Nat) : Nat → Nat → Iter
  | 0, idx => ⟨some b, some idx, none⟩
  | n+1, idx =>
    match slotAt t.collision_table idx with
    | some c =>
      if c.main_index = b ∧ c.key = k then ⟨some b, some idx, some (true, idx)⟩
      else collision_scan t b k n (mask t.bucket_count (idx + 1))
    | none => collision_scan t b k n (mask t.bucket_count (idx + 1))

/-- `HashMap::find`.  Mirrors the four cases of the source: empty table, empty
primary slot, key match at the primary slot, `chain_length == 0`, and
otherwise the collision-chain scan over exactly `chain_length` slots
starting at the bucket index itself. -/
def find (hash : Nat → Nat) (t : Table) (k : Nat) : Iter :=
  if t.bucket_count = 0 then iterEnd
  else
    let b := mask t.bucket_count (hash k)
    match slotAt t.main_table b with
    | none => ⟨some b, none, none⟩
    | some e =>
      if e.key = k then ⟨some b, none, some (false, b)⟩
      else if e.chain_length = 0 then ⟨some b, some b, none⟩
      else collision_scan t b k e.chain_length b

/-- The overflow-slot probe loop of `try_insert`: from collision index `idx`
with running chain length `cl`, advance `(idx + 1) & mask` while the slot is
occupied, counting every step; first argument is fuel (the loop always finds
an empty slot within `bucket_count` steps in reachable states). -/
def probe_free (t : Table) : Nat → Nat → Nat → Option (Nat × Nat)
  | 0, _, _ => none
  | n+1, idx, cl =>
    match slotAt t.collision_table idx with
    | none => some (idx, cl)
    | some _ => probe_free t n (mask t.bucket_count (idx + 1)) (cl + 1)

/-- The doubling loop of `reserve`: `while (limit < n) limit *= 2`, with fuel
(callers pass fuel `n`, which always suffices for `limit ≥ 1`). -/
def grow_limit : Nat → Nat → Nat → Nat
  | 0, l, _ => l
  | f+1, l, n => if l < n then grow_limit f (2 * l) n else l

/-- The backward chain-shrinking loop of `remove(iterator)`:
`while (chain_len && collision_table[(b + chain_len - 1) & mask].main_index != b) --chain_len`. -/
def shrink_chain (coll : List (Option CollisionEntry)) (cap b : Nat) : Nat → Nat
  | 0 => 0
  | l+1 =>
    match slotAt coll (mask cap (b + l)) with
    | some c => if c.main_index = b then l + 1 else shrink_chain coll cap b l
    | none => shrink_chain coll cap b l

/-- Collision-phase branch of `iterator::operator++`: from current collision
index `ci`, stop with a null pointer at the last slot, otherwise advance to
the next live collision slot.  First argument is fuel (`bucket_count` always
suffices). -/
def coll_advance (t : Table) (bi : Option Nat) : Nat → Nat → Iter
  | 0, ci => ⟨bi, some ci, none⟩
  | n+1, ci =>
    if ci = t.bucket_count - 1 then ⟨bi, some ci, none⟩
    else
      match slotAt t.collision_table (ci + 1) with
      | some _ => ⟨bi, some (ci + 1), some (true, ci + 1)⟩
      | none => coll_advance t bi n (ci + 1)

/-- Main-phase branch of `iterator::operator++`: advance to the next live
primary slot; at the last bucket switch to the collision phase (with
`bucket_index = invalid_marker`), starting the scan at collision index 0. -/
def main_advance (t : Table) : Nat → Nat → Iter
  | 0, bi => ⟨some bi, none, none⟩
  | n+1, bi =>
    if bi = t.bucket_count - 1 then
      match slotAt t.collision_table 0 with
      | some _ => ⟨none, some 0, some (true, 0)⟩
      | none => coll_advance t none t.bucket_count 0
    else
      match slotAt t.main_table (bi + 1) with
      | some _ => ⟨some (bi + 1), none, some (false, bi + 1)⟩
      | none => main_advance t n (bi + 1)

/-- `iterator::operator++`. -/
def iterNext (t : Table) (it : Iter) : Iter :=
  match it.collision_index with
  | none => main_advance t t.bucket_count (it.bucket_index.getD 0)
  | some ci => coll_advance t it.bucket_index t.bucket_count ci

/-- Least live primary-slot index `≥ i` (helper for `begin()`); fuel-driven. -/
def first_live_main (t : Table) : Nat → Nat → Option Nat
  | 0, _ => none
  | n+1, i =>
    if i < t.bucket_count then
      match slotAt t.main_table i with
      | some _ => some i
      | none => first_live_main t n (i + 1)
    else none

/-- Least live collision-slot index `≥ i` (helper for `begin()`); fuel-driven. -/
def first_live_coll (t : Table) : Nat → Nat → Option Nat
  | 0, _ => none
  | n+1, i =>
    if i < t.bucket_count then
      match slotAt t.collision_table i with
      | some _ => some i
      | none => first_live_coll t n (i + 1)
    else none

/-- `HashMap::begin`. -/
def iterBegin (t : Table) : Iter :=
  if t.bucket_count = 0 then iterEnd
  else
    match first_live_main t t.bucket_count 0 with
    | some i => ⟨some i, none, some (false, i)⟩
    | none =>
      match first_live_coll t t.bucket_count 0 with
      | some i => ⟨some i, some i, some (true, i)⟩
      | none => iterEnd

/-- `HashMap::remove(iterator)`.  The corners the C++ reaches only through
undefined behaviour (removing through an iterator whose slot is not live)
return the table unchanged; every theorem below only applies `remove` to
valid cursors, where the model follows the source exactly: decrement
`element_count`; for a primary slot with a non-empty chain relocate the chain
tail into the primary slot, clear the tail slot and re-shrink the chain; for a
chain of length 0 clear the slot and return the advanced iterator; for a
collision slot relocate the tail into the removed slot (keeping that slot's
`main_index`) unless the removed slot is the tail itself. -/
def remove (t : Table) (it : Iter) : Table × Iter :=
  let cnt := t.element_count - 1
  match it.collision_index with
  | none =>
    let b := it.bucket_index.getD 0
    match slotAt t.main_table b with
    | none => (t, it)
    | some e =>
      if e.chain_length ≠ 0 then
        let cl := e.chain_length - 1
        let idx := mask t.bucket_count (b + cl)
        match slotAt t.collision_table idx with
        | none => (t, it)
        | some c =>
          let coll2 := t.collision_table.set idx none
          let nc := shrink_chain coll2 t.bucket_count b cl
          (⟨t.bucket_count, cnt, t.main_table.set b (some ⟨c.key, c.value, nc⟩), coll2⟩, it)
      else
        let it2 := iterNext t it
        (⟨t.bucket_count, cnt, t.main_table.set b none, t.collision_table⟩, it2)
  | some ci =>
    let b := it.bucket_index.getD ((slotAt t.collision_table ci).elim 0 (·.main_index))
    match slotAt t.main_table b with
    | none => (t, it)
    | some e =>
      let cl := e.chain_length - 1
      let lastIdx := mask t.bucket_count (b + cl)
      match slotAt t.collision_table lastIdx with
      | none => (t, it)
      | some last =>
        if lastIdx = ci then
          let it2 := iterNext t it
          let coll2 := t.collision_table.set lastIdx none
          let nc := shrink_chain coll2 t.bucket_count b cl
          (⟨t.bucket_count, cnt, t.main_table.set b (some ⟨e.key, e.value, nc⟩), coll2⟩, it2)
        else
          let coll2 :=
            (match slotAt t.collision_table ci with
             | some c0 => t.collision_table.set ci (some ⟨last.key, last.value, c0.main_index⟩)
             | none => t.collision_table).set lastIdx none
          let nc := shrink_chain coll2 t.bucket_count b cl
          (⟨t.bucket_count, cnt, t.main_table.set b (some ⟨e.key, e.value, nc⟩), coll2⟩, it)

/-- `HashMap::remove(KeyT&&)` — note the C++ member returns `void`; the model
returns only the updated table.  The `iter != end()` comparison is the
`value_ptr` comparison of `iterator::operator==`. -/
def remove_key (hash : Nat → Nat) (t : Table) (k : Nat) : Table :=
  let it := find hash t k
  if it.value_ptr.isSome then (remove t it).1 else t

/-- Loop body of `HashMap::clear`: `while (iter != end_iter) iter = remove(iter)`. -/
def clear_loop : Nat → Table → Iter → Table
  | 0, t, _ => t
  | n+1, t, it =>
    if it.value_ptr.isSome then
      let p := remove t it
      clear_loop n p.1 p.2
    else t

/-- `HashMap::clear` (fuel `element_count + 1` always suffices: every
iteration removes one live element). -/
def clear (t : Table) : Table := clear_loop (t.element_count + 1) t (iterBegin t)

/-- `sizeof(MainEntry)` for the modelled instantiation
`KeyType = ValueType = size_t` (8 + 8 + 8 bytes). -/
def entry_size : Nat := 24

/-- First growth ceiling `1024 * 1024 / sizeof(MainEntry)` of `try_insert`. -/
def threshold1 : Nat := 1024 * 1024 / entry_size

/-- Second growth ceiling `1024 * 1024 * 4 / sizeof(MainEntry)` of `try_insert`. -/
def threshold2 : Nat := 1024 * 1024 * 4 / entry_size

/-- The bound `std::numeric_limits<size_t>::max() / 2` checked by `reserve`. -/
def size_max_half : Nat := (2 ^ 64 - 1) / 2

/-- A freshly allocated table of capacity `c` as produced inside
`resize_table`: every `chain_length` and `main_index` set to `invalid_marker`. -/
def fresh_table (c : Nat) : Table :=
  ⟨c, 0, List.replicate c none, List.replicate c none⟩

/-- The live entries of the old arrays in the order `resize_table` re-inserts
them: primary slots by ascending index, then collision slots by ascending
index. -/
def old_entries (t : Table) : List (Nat × Nat) :=
  t.main_table.filterMap (fun o => o.map fun e => (e.key, e.value)) ++
    t.collision_table.filterMap (fun o => o.map fun c => (c.key, c.value))

/-- Call descriptor for the mutually recursive insertion/growth machinery:
`ins` is `try_insert`, `core` is the placement part of `try_insert` after the
duplicate check and the count-driven reserve (the code between the `resize:`
label and the end of the function, entered with a freshly recomputed `find`
iterator), `resv` is `reserve`, `rsz` is `resize_table`, and `rhx` is the
re-insertion loop of `resize_table` over the saved old entries. -/
inductive HMCall where
  | ins (t : Table) (k v : Nat)
  | core (t : Table) (k v : Nat)
  | resv (t : Table) (n : Nat)
  | rsz (t : Table) (c : Nat)
  | rhx (t : Table) (l : List (Nat × Nat))

/-- One fuel-indexed interpreter for the mutually recursive part of the
source.  Results carry the returned iterator and the `bool` of
`std::pair<iterator, bool>` (dummy values for the calls that return `void`). -/
def hmStep (hash : Nat → Nat) : Nat → HMCall → Res (Table × Iter × Bool)
  | 0, _ => .noFuel
  | fuel+1, .ins t k v =>
    match (if t.bucket_count = 0 then hmStep hash fuel (.resv t 16)
           else .ok (t, iterEnd, true)) with
    | .ok (t1, _, _) =>
      let it := find hash t1 k
      if it.value_ptr.isSome then .ok (t1, it, false)
      else
        match (if t1.bucket_count < t1.element_count + 1
               then hmStep hash fuel (.resv t1 (t1.element_count + 1))
               else .ok (t1, iterEnd, true)) with
        | .ok (t2, _, _) => hmStep hash fuel (.core t2 k v)
        | r => r
    | r => r
  | fuel+1, .core t k v =>
    let it := find hash t k
    match it.collision_index with
    | none =>
      let b := it.bucket_index.getD 0
      .ok (⟨t.bucket_count, t.element_count + 1,
            t.main_table.set b (some ⟨k, v, 0⟩), t.collision_table⟩,
           ⟨some b, none, some (false, b)⟩, true)
    | some start =>
      let b := it.bucket_index.getD 0
      if t.bucket_count < threshold1 ∧ t.bucket_count < t.element_count * 4 then
        match hmStep hash fuel (.resv t (t.bucket_count + 1)) with
        | .ok (t1, _, _) => hmStep hash fuel (.core t1 k v)
        | r => r
      else
        let ch := (slotAt t.main_table b).elim 0 (·.chain_length)
        match probe_free t (t.bucket_count + 1) start (ch + 1) with
        | none => .noFuel
        | some (idx, nc) =>
          if (4 ≤ nc ∧ t.bucket_count < threshold2) ∨ t.bucket_count / 2 ≤ nc then
            match hmStep hash fuel (.resv t (t.bucket_count + 1)) with
            | .ok (t1, _, _) => hmStep hash fuel (.core t1 k v)
            | r => r
          else
            .ok (⟨t.bucket_count, t.element_count + 1,
                  t.main_table.set b
                    ((slotAt t.main_table b).map fun e => ⟨e.key, e.value, nc⟩),
                  t.collision_table.set idx (some ⟨k, v, b⟩)⟩,
                 ⟨some b, some idx, some (true, idx)⟩, true)
  | fuel+1, .resv t n =>
    if size_max_half ≤ n then .thrown
    else
      hmStep hash fuel
        (.rsz t (grow_limit n (if t.bucket_count = 0 then 1 else t.bucket_count) n))
  | fuel+1, .rsz t c =>
    if c &&& (c - 1) ≠ 0 then .aborted
    else hmStep hash fuel (.rhx (fresh_table c) (old_entries t))
  | _+1, .rhx t [] => .ok (t, iterEnd, true)
  | fuel+1, .rhx t ((k, v) :: rest) =>
    match hmStep hash fuel (.ins t k v) with
    | .ok (t1, _, _) => hmStep hash fuel (.rhx t1 rest)
    | r => r

/-- `HashMap::try_insert`. -/
def try_insert (hash : Nat → Nat) (fuel : Nat) (t : Table) (k v : Nat) :
    Res (Table × Iter × Bool) :=
  hmStep hash fuel (.ins t k v)

/-- Project a step result to its table. -/
def resTable : Res (Table × Iter × Bool) → Res Table
  | .ok r => .ok r.1
  | .thrown => .thrown
  | .aborted => .aborted
  | .noFuel => .noFuel

/-- `HashMap::reserve`. -/
def reserve (hash : Nat → Nat) (fuel : Nat) (t : Table) (n : Nat) : Res Table :=
  resTable (hmStep hash fuel (.resv t n))

/-- `HashMap::resize_table`. -/
def resize_table (hash : Nat → Nat) (fuel : Nat) (t : Table) (c : Nat) : Res Table :=
  resTable (hmStep hash fuel (.rsz t c))

/-- A default-constructed `HashMap`. -/
def empty_table : Table := ⟨0, 0, [], []⟩

/-- An insertion or an erase-by-key, for describing operation sequences. -/
inductive Op where
  | insert (k v : Nat)
  | erase (k : Nat)
deriving DecidableEq, Repr

/-- Run a sequence of public `insert`/`remove(key)` calls. -/
def runOps (hash : Nat → Nat) (fuel : Nat) : Table → List Op → Res Table
  | t, [] => .ok t
  | t, .insert k v :: rest =>
    match try_insert hash fuel t k v with
    | .ok r => runOps hash fuel r.1 rest
    | .thrown => .thrown
    | .aborted => .aborted
    | .noFuel => .noFuel
  | t, .erase k :: rest => runOps hash fuel (remove_key hash t k) rest

/-- Dereference an iterator's `value_ptr` to the `(key, value)` pair it
exposes (`operator*` materialises exactly this pair of references). -/
def read_ptr (t : Table) (p : Bool × Nat) : Option (Nat × Nat) :=
  match p with
  | (false, i) => (slotAt t.main_table i).map fun e => (e.key, e.value)
  | (true, i) => (slotAt t.collision_table i).map fun c => (c.key, c.value)

/-- The value `find` hands back: `none` when `find(k) == end()`, otherwise the
value of the slot the returned cursor points at. -/
def findVal (hash : Nat → Nat) (t : Table) (k : Nat) : Option Nat :=
  (find hash t k).value_ptr.bind fun p => (read_ptr t p).map Prod.snd

/-- `HashMap::operator=` from `src` into `dst` (clear, then re-insert every
entry of `src` in iteration order). -/
def assign_from (hash : Nat → Nat) (fuel : Nat) (dst src : Table) : Res Table :=
  resTable (hmStep hash fuel (.rhx (clear dst) (old_entries src)))

/-- `HashMap::HashMap(const HashMap&)` — the only constructor taking another
table; C++ overload resolution also selects it for `HashMap(HashMap&&)`
because no move constructor is declared. -/
def copy_construct (hash : Nat → Nat) (fuel : Nat) (src : Table) : Res Table :=
  assign_from hash fuel empty_table src

/-! ## Abstraction: live entries, key lists, and the representation invariant -/

/-- Live primary entries in slot order. -/
def mains (t : Table) : List MainEntry := t.main_table.filterMap id

/-- Live collision entries in slot order. -/
def colls (t : Table) : List CollisionEntry := t.collision_table.filterMap id

/-- Keys of all live slots, primary slots first (the traversal order). -/
def keysList (t : Table) : List Nat :=
  (mains t).map (·.key) ++ (colls t).map (·.key)

/-- The table holds the binding `k ↦ v` in some live slot. -/
def HasKV (t : Table) (k v : Nat) : Prop :=
  (∃ b e, slotAt t.main_table b = some e ∧ e.key = k ∧ e.value = v) ∨
  (∃ i c, slotAt t.collision_table i = some c ∧ c.key = k ∧ c.value = v)

/-- Representation invariant of the container, as maintained by every public
operation (capacities are powers of two, counts agree with live slots, every
entry is addressed by its hash, collision entries sit inside their owner's
probe window, each non-empty chain's tail slot is owned by its bucket, chains
stay shorter than half the capacity, and live keys are pairwise distinct). -/
structure WF (hash : Nat → Nat) (t : Table) : Prop where
  mainLen : t.main_table.length = t.bucket_count
  collLen : t.collision_table.length = t.bucket_count
  pow2 : t.bucket_count = 0 ∨ ∃ j, t.bucket_count = 2 ^ j
  countEq : t.element_count = (keysList t).length
  countLe : t.element_count ≤ t.bucket_count
  home : ∀ b e, slotAt t.main_table b = some e → mask t.bucket_count (hash e.key) = b
  ownerOf : ∀ i c, slotAt t.collision_table i = some c →
      mask t.bucket_count (hash c.key) = c.main_index ∧
      ∃ e, slotAt t.main_table c.main_index = some e ∧
        ∃ o, o < e.chain_length ∧ i = (c.main_index + o) % t.bucket_count
  tailOwn : ∀ b e, slotAt t.main_table b = some e → e.chain_length ≠ 0 →
      ∃ c, slotAt t.collision_table ((b + (e.chain_length - 1)) % t.bucket_count) = some c ∧
        c.main_index = b
  chainLt : ∀ b e, slotAt t.main_table b = some e → 2 * e.chain_length < t.bucket_count
  nodupKeys : (keysList t).Nodup

/-! ## Basic slot lemmas -/

theorem slotAt_eq_get? (l : List (Option α)) (i : Nat) :
    slotAt l i = (l.get? i).getD none := by
  simp [slotAt, List.getD_eq_getD_get?]

theorem slotAt_eq_some_iff {l : List (Option α)} {i : Nat} {y : α} :
    slotAt l i = some y ↔ l.get? i = some (some y) := by
  rw [slotAt_eq_get?]
  cases h : l.get? i with
  | none => simp
  | some o => simp

theorem slotAt_lt_length {l : List (Option α)} {i : Nat} {y : α}
    (h : slotAt l i = some y) : i < l.length := by
  rw [slotAt_eq_some_iff] at h
  exact (List.get?_eq_some.1 h).1

theorem slotAt_set_self {l : List (Option α)} {i : Nat} (a : Option α)
    (h : i < l.length) : slotAt (l.set i a) i = a := by
  rw [slotAt_eq_get?]
  simp [List.get?_eq_getElem?, List.getElem?_set_self h]

theorem slotAt_set_ne {l : List (Option α)} {i j : Nat} (a : Option α)
    (h : i ≠ j) : slotAt (l.set i a) j = slotAt l j := by
  rw [slotAt_eq_get?, slotAt_eq_get?]
  simp [List.get?_eq_getElem?, List.getElem?_set_ne h]

theorem slotAt_replicate (c i : Nat) :
    slotAt (List.replicate c (none : Option α)) i = none := by
  rw [slotAt_eq_get?]
  simp only [List.get?_eq_getElem?, List.getElem?_replicate]
  split <;> rfl

theorem slotAt_ge_length {l : List (Option α)} {i : Nat} (h : l.length ≤ i) :
    slotAt l i = none := by
  rw [slotAt_eq_get?, List.get?_eq_none.2 h]
  rfl

/-! ## Mask and modular-window arithmetic -/

theorem mask_mod (j x : Nat) : mask (2 ^ j) x = x % 2 ^ j := by
  simp [mask, Nat.and_pow_two_sub_one_eq_mod]

theorem mask_lt {cap : Nat} (hc : 0 < cap) (x : Nat) : mask cap x < cap :=
  lt_of_le_of_lt (Nat.and_le_right) (by omega)

theorem win_inj {cap : Nat} (hc : 0 < cap) {b o1 o2 : Nat}
    (h1 : o1 < cap) (h2 : o2 < cap)
    (h : (b + o1) % cap = (b + o2) % cap) : o1 = o2 := by
  have hme : Nat.ModEq cap (b + o1) (b + o2) := h
  have := Nat.ModEq.add_left_cancel' b hme
  have h3 : o1 % cap = o2 % cap := this
  rwa [Nat.mod_eq_of_lt h1, Nat.mod_eq_of_lt h2] at h3

theorem win_surj {cap : Nat} (hc : 0 < cap) {b i : Nat} (hb : b ≤ cap)
    (hi : i < cap) : ∃ o, o < cap ∧ (b + o) % cap = i := by
  refine ⟨(i + cap - b) % cap, Nat.mod_lt _ hc, ?_⟩
  rw [Nat.add_mod_mod]
  have hb2 : b + (i + cap - b) = i + cap := by omega
  rw [hb2, Nat.add_mod_right, Nat.mod_eq_of_lt hi]


/-! ## Decomposing the live-entry lists under single-slot updates -/

theorem self_decomp : ∀ (l : List α) (i : Nat) (x : α), l.get? i = some x →
    l = l.take i ++ x :: l.drop (i + 1)
  | a :: l, 0, x, h => by
    simp only [List.get?_cons_zero, Option.some.injEq] at h
    simp [h]
  | a :: l, i+1, x, h => by
    simp only [List.get?_cons_succ] at h
    have ih := self_decomp l i x h
    simp only [List.take_succ_cons, List.drop_succ_cons, List.cons_append]
    exact congrArg (a :: ·) ih

theorem filterMap_decomp_live {l : List (Option α)} {i : Nat} {y : α}
    (h : slotAt l i = some y) :
    l.filterMap id = (l.take i).filterMap id ++ y :: (l.drop (i + 1)).filterMap id := by
  have h2 := slotAt_eq_some_iff.1 h
  conv_lhs => rw [self_decomp l i (some y) h2]
  simp

theorem filterMap_decomp_free {l : List (Option α)} {i : Nat}
    (hlen : i < l.length) (h : slotAt l i = none) :
    l.filterMap id = (l.take i).filterMap id ++ (l.drop (i + 1)).filterMap id := by
  have h2 : l.get? i = some none := by
    cases h3 : l.get? i with
    | none => exact absurd (List.get?_eq_none.1 h3) (by omega)
    | some o =>
      have : slotAt l i = o := by rw [slotAt_eq_get?, h3]; rfl
      rw [h] at this
      rw [← this]
  conv_lhs => rw [self_decomp l i none h2]
  simp

theorem filterMap_set (a : Option α) {l : List (Option α)} {i : Nat} (hlen : i < l.length) :
    (l.set i a).filterMap id =
      (l.take i).filterMap id ++ (a.toList ++ (l.drop (i + 1)).filterMap id) := by
  rw [List.set_eq_take_cons_drop a hlen]
  cases a <;> simp

theorem mem_filterMap_id {l : List (Option α)} {y : α} :
    y ∈ l.filterMap id ↔ ∃ i, slotAt l i = some y := by
  rw [List.mem_filterMap]
  constructor
  · rintro ⟨o, ho, hid⟩
    obtain ⟨n, hn⟩ := List.mem_iff_get?.1 ho
    refine ⟨n, ?_⟩
    rw [slotAt_eq_get?, hn]
    exact hid
  · rintro ⟨i, hi⟩
    exact ⟨some y, List.mem_iff_get?.2 ⟨i, slotAt_eq_some_iff.1 hi⟩, rfl⟩

theorem old_entries_eq (t : Table) :
    old_entries t = (mains t).map (fun e => (e.key, e.value)) ++
      (colls t).map (fun c => (c.key, c.value)) := by
  simp [old_entries, mains, colls, List.map_filterMap]

theorem keysList_eq_map_old (t : Table) : keysList t = (old_entries t).map Prod.fst := by
  rw [keysList, old_entries_eq]
  simp only [List.map_append, List.map_map]
  rfl

theorem mem_old_entries {t : Table} {k v : Nat} :
    (k, v) ∈ old_entries t ↔ HasKV t k v := by
  rw [old_entries_eq]
  simp only [List.mem_append, List.mem_map, HasKV, mains, colls]
  constructor
  · rintro (⟨e, he, heq⟩ | ⟨c, hc, heq⟩)
    · obtain ⟨b, hb⟩ := mem_filterMap_id.1 he
      exact Or.inl ⟨b, e, hb, congrArg Prod.fst heq, congrArg Prod.snd heq⟩
    · obtain ⟨i, hi⟩ := mem_filterMap_id.1 hc
      exact Or.inr ⟨i, c, hi, congrArg Prod.fst heq, congrArg Prod.snd heq⟩
  · rintro (⟨b, e, hb, hk, hv⟩ | ⟨i, c, hi, hk, hv⟩)
    · exact Or.inl ⟨e, mem_filterMap_id.2 ⟨b, hb⟩, by simp [hk, hv]⟩
    · exact Or.inr ⟨c, mem_filterMap_id.2 ⟨i, hi⟩, by simp [hk, hv]⟩

theorem hasKey_iff_mem_keysList {t : Table} {k : Nat} :
    (∃ v, HasKV t k v) ↔ k ∈ keysList t := by
  rw [keysList_eq_map_old]
  constructor
  · rintro ⟨v, hv⟩
    exact List.mem_map.2 ⟨(k, v), mem_old_entries.2 hv, rfl⟩
  · intro h
    obtain ⟨⟨k', v⟩, hm, hk⟩ := List.mem_map.1 h
    cases hk
    exact ⟨v, mem_old_entries.1 hm⟩


/-! ## Characterising the scan, probe and shrink loops -/

/-- The collision-chain scan hits index `i`: a live slot owned by `b` with key `k`. -/
def scanHit (t : Table) (b k i : Nat) : Prop :=
  ∃ c, slotAt t.collision_table i = some c ∧ c.main_index = b ∧ c.key = k

/-- Collision slot `i` is empty. -/
def freeAt (t : Table) (i : Nat) : Prop := slotAt t.collision_table i = none

/-- Collision slot `i` is live and owned by bucket `b`. -/
def ownAt (coll : List (Option CollisionEntry)) (b i : Nat) : Prop :=
  ∃ c, slotAt coll i = some c ∧ c.main_index = b

instance (t : Table) (i : Nat) : Decidable (freeAt t i) :=
  inferInstanceAs (Decidable (_ = _))

theorem two_pow_cap_pos {cap j : Nat} (h : cap = 2 ^ j) : 0 < cap := by
  rw [h]; positivity

theorem mask_step {cap j : Nat} (h : cap = 2 ^ j) (x : Nat) :
    mask cap x = x % cap := by
  rw [h]; exact mask_mod j x

theorem collision_scan_miss {t : Table} {b k j : Nat}
    (hcap : t.bucket_count = 2 ^ j) :
    ∀ n idx, idx < t.bucket_count →
      (∀ m, m < n → ¬ scanHit t b k ((idx + m) % t.bucket_count)) →
      collision_scan t b k n idx = ⟨some b, some ((idx + n) % t.bucket_count), none⟩
  | 0, idx, hidx, _ => by
    simp [collision_scan, Nat.mod_eq_of_lt hidx]
  | n+1, idx, hidx, hmiss => by
    have hc : 0 < t.bucket_count := two_pow_cap_pos hcap
    have hrec : collision_scan t b k n ((idx + 1) % t.bucket_count) =
        ⟨some b, some (((idx + 1) % t.bucket_count + n) % t.bucket_count), none⟩ := by
      apply collision_scan_miss hcap n _ (Nat.mod_lt _ hc)
      intro m hm
      rw [Nat.mod_add_mod]
      have : idx + 1 + m = idx + (m + 1) := by omega
      rw [this]
      exact hmiss (m + 1) (by omega)
    have hshift : ((idx + 1) % t.bucket_count + n) % t.bucket_count =
        (idx + (n + 1)) % t.bucket_count := by
      rw [Nat.mod_add_mod]
      congr 1
      omega
    cases hslot : slotAt t.collision_table idx with
    | none =>
      simp only [collision_scan, hslot, mask_step hcap]
      rw [hrec, hshift]
    | some c =>
      have hnh : ¬ (c.main_index = b ∧ c.key = k) := by
        intro hcon
        exact hmiss 0 (by omega) (by
          rw [Nat.add_zero, Nat.mod_eq_of_lt hidx]
          exact ⟨c, hslot, hcon.1, hcon.2⟩)
      simp only [collision_scan, hslot, mask_step hcap, if_neg hnh]
      rw [hrec, hshift]

theorem collision_scan_hit {t : Table} {b k j : Nat}
    (hcap : t.bucket_count = 2 ^ j) :
    ∀ n idx m, idx < t.bucket_count → m < n →
      scanHit t b k ((idx + m) % t.bucket_count) →
      (∀ m', m' < m → ¬ scanHit t b k ((idx + m') % t.bucket_count)) →
      collision_scan t b k n idx =
        ⟨some b, some ((idx + m) % t.bucket_count),
         some (true, (idx + m) % t.bucket_count)⟩
  | 0, idx, m, _, hm, _, _ => by omega
  | n+1, idx, m, hidx, hm, hhit, hmin => by
    have hc : 0 < t.bucket_count := two_pow_cap_pos hcap
    cases m with
    | zero =>
      rw [Nat.add_zero, Nat.mod_eq_of_lt hidx] at hhit
      obtain ⟨c, hslot, hown, hkey⟩ := hhit
      simp only [collision_scan, hslot, if_pos (And.intro hown hkey)]
      rw [Nat.add_zero, Nat.mod_eq_of_lt hidx]
    | succ m0 =>
      have hnh0 : ¬ scanHit t b k idx := by
        have := hmin 0 (by omega)
        rwa [Nat.add_zero, Nat.mod_eq_of_lt hidx] at this
      have hshift : ∀ m', ((idx + 1) % t.bucket_count + m') % t.bucket_count =
          (idx + (m' + 1)) % t.bucket_count := by
        intro m'
        rw [Nat.mod_add_mod]
        congr 1
        omega
      have hrec := collision_scan_hit hcap n ((idx + 1) % t.bucket_count) m0
        (Nat.mod_lt _ hc) (by omega)
        (by rw [hshift m0]; exact hhit)
        (by
          intro m' hm'
          rw [hshift m']
          exact hmin (m' + 1) (by omega))
      rw [hshift m0] at hrec
      cases hslot : slotAt t.collision_table idx with
      | none =>
        simp only [collision_scan, hslot, mask_step hcap]
        rw [hrec]
      | some c =>
        have hnh : ¬ (c.main_index = b ∧ c.key = k) := fun hcon =>
          hnh0 ⟨c, hslot, hcon.1, hcon.2⟩
        simp only [collision_scan, hslot, mask_step hcap, if_neg hnh]
        rw [hrec]

theorem probe_free_hit {t : Table} {j : Nat}
    (hcap : t.bucket_count = 2 ^ j) :
    ∀ n idx cl m, idx < t.bucket_count → m < n →
      freeAt t ((idx + m) % t.bucket_count) →
      (∀ m', m' < m → ¬ freeAt t ((idx + m') % t.bucket_count)) →
      probe_free t n idx cl = some ((idx + m) % t.bucket_count, cl + m)
  | 0, idx, cl, m, _, hm, _, _ => by omega
  | n+1, idx, cl, m, hidx, hm, hfree, hmin => by
    have hc : 0 < t.bucket_count := two_pow_cap_pos hcap
    cases m with
    | zero =>
      rw [Nat.add_zero, Nat.mod_eq_of_lt hidx] at hfree
      have hfree2 : slotAt t.collision_table idx = none := hfree
      simp only [probe_free, hfree2]
      rw [Nat.add_zero, Nat.mod_eq_of_lt hidx, Nat.add_zero]
    | succ m0 =>
      have hocc : ¬ freeAt t idx := by
        have := hmin 0 (by omega)
        rwa [Nat.add_zero, Nat.mod_eq_of_lt hidx] at this
      cases hslot : slotAt t.collision_table idx with
      | none => exact absurd hslot hocc
      | some c =>
        have hshift : ∀ m', ((idx + 1) % t.bucket_count + m') % t.bucket_count =
            (idx + (m' + 1)) % t.bucket_count := by
          intro m'
          rw [Nat.mod_add_mod]
          congr 1
          omega
        have hrec := probe_free_hit hcap n ((idx + 1) % t.bucket_count) (cl + 1) m0
          (Nat.mod_lt _ hc) (by omega)
          (by rw [hshift m0]; exact hfree)
          (by
            intro m' hm'
            rw [hshift m']
            exact hmin (m' + 1) (by omega))
        simp only [probe_free, hslot, mask_step hcap]
        rw [hrec, hshift m0]
        have : cl + 1 + m0 = cl + (m0 + 1) := by omega
        rw [this]

theorem exists_least_free {t : Table} {idx : Nat} (hc : 0 < t.bucket_count)
    (hidx : idx < t.bucket_count)
    (hfree : ∃ i, i < t.bucket_count ∧ freeAt t i) :
    ∃ m, m < t.bucket_count ∧ freeAt t ((idx + m) % t.bucket_count) ∧
      ∀ m', m' < m → ¬ freeAt t ((idx + m') % t.bucket_count) := by
  obtain ⟨i, hilt, hif⟩ := hfree
  obtain ⟨o, holt, ho⟩ := win_surj hc (Nat.le_of_lt hidx) hilt (b := idx)
  have hex : ∃ m, freeAt t ((idx + m) % t.bucket_count) := ⟨o, ho ▸ hif⟩
  refine ⟨Nat.find hex, ?_, Nat.find_spec hex, fun m' hm' => Nat.find_min hex hm'⟩
  exact lt_of_le_of_lt (Nat.find_min' hex (ho ▸ hif)) holt

theorem shrink_chain_le (coll : List (Option CollisionEntry)) (cap b : Nat) :
    ∀ l, shrink_chain coll cap b l ≤ l
  | 0 => Nat.le_refl 0
  | l+1 => by
    cases hslot : slotAt coll (mask cap (b + l)) with
    | none =>
      simp only [shrink_chain, hslot]
      exact Nat.le_succ_of_le (shrink_chain_le coll cap b l)
    | some c =>
      simp only [shrink_chain, hslot]
      split
      · exact Nat.le_refl _
      · exact Nat.le_succ_of_le (shrink_chain_le coll cap b l)

theorem shrink_chain_own {coll : List (Option CollisionEntry)} {cap b j : Nat}
    (hcap : cap = 2 ^ j) :
    ∀ l, shrink_chain coll cap b l = 0 ∨
      ownAt coll b ((b + (shrink_chain coll cap b l - 1)) % cap)
  | 0 => Or.inl rfl
  | l+1 => by
    cases hslot : slotAt coll (mask cap (b + l)) with
    | none =>
      simp only [shrink_chain, hslot]
      exact shrink_chain_own hcap l
    | some c =>
      by_cases hown : c.main_index = b
      · simp only [shrink_chain, hslot, if_pos hown]
        refine Or.inr ?_
        have : (l + 1) - 1 = l := by omega
        rw [this, ← mask_step hcap]
        exact ⟨c, hslot, hown⟩
      · simp only [shrink_chain, hslot, if_neg hown]
        exact shrink_chain_own hcap l

theorem shrink_chain_max {coll : List (Option CollisionEntry)} {cap b j : Nat}
    (hcap : cap = 2 ^ j) :
    ∀ l m, shrink_chain coll cap b l ≤ m → m < l → ¬ ownAt coll b ((b + m) % cap)
  | 0, m, _, hm => by omega
  | l+1, m, hle, hm => by
    cases hslot : slotAt coll (mask cap (b + l)) with
    | none =>
      simp only [shrink_chain, hslot] at hle
      rcases Nat.lt_or_ge m l with hml | hml
      · exact shrink_chain_max hcap l m hle hml
      · have hmeq : m = l := by omega
        subst hmeq
        rw [← mask_step hcap]
        rintro ⟨c, hc2, -⟩
        rw [hslot] at hc2
        cases hc2
    | some c =>
      by_cases hown : c.main_index = b
      · simp only [shrink_chain, hslot, if_pos hown] at hle
        omega
      · simp only [shrink_chain, hslot, if_neg hown] at hle
        rcases Nat.lt_or_ge m l with hml | hml
        · exact shrink_chain_max hcap l m hle hml
        · have hmeq : m = l := by omega
          subst hmeq
          rw [← mask_step hcap]
          rintro ⟨c', hc2, hc3⟩
          rw [hslot] at hc2
          cases hc2
          exact hown hc3

theorem shrink_chain_gt {coll : List (Option CollisionEntry)} {cap b j o l : Nat}
    (hcap : cap = 2 ^ j) (hown : ownAt coll b ((b + o) % cap)) (ho : o < l) :
    o < shrink_chain coll cap b l := by
  by_contra hcon
  exact shrink_chain_max hcap l o (by omega) ho hown


/-! ## Distinctness of live keys across slots -/

theorem slotAt_take {l : List (Option α)} {i j : Nat} (h : j < i) :
    slotAt (l.take i) j = slotAt l j := by
  rw [slotAt_eq_get?, slotAt_eq_get?, List.get?_take h]

theorem slotAt_drop (l : List (Option α)) (i j : Nat) :
    slotAt (l.drop i) j = slotAt l (i + j) := by
  rw [slotAt_eq_get?, slotAt_eq_get?, List.get?_drop]

theorem mains_key_nodup {t : Table} (hnd : (keysList t).Nodup) :
    ((mains t).map (·.key)).Nodup :=
  (List.nodup_append.1 hnd).1

theorem colls_key_nodup {t : Table} (hnd : (keysList t).Nodup) :
    ((colls t).map (·.key)).Nodup :=
  (List.nodup_append.1 hnd).2.1

theorem nodup_list_inj {l : List (Option α)} {f : α → Nat}
    (hnd : (l.filterMap id |>.map f).Nodup)
    {i1 i2 : Nat} {y1 y2 : α}
    (h1 : slotAt l i1 = some y1) (h2 : slotAt l i2 = some y2)
    (hk : f y1 = f y2) : i1 = i2 := by
  by_contra hne
  have haux : ∀ (a1 a2 : Nat) (z1 z2 : α), slotAt l a1 = some z1 →
      slotAt l a2 = some z2 → f z1 = f z2 → a1 < a2 → False := by
    intro a1 a2 z1 z2 ha1 ha2 hkz hlt
    have hdec := filterMap_decomp_live ha1
    have hmem2 : z2 ∈ (l.drop (a1 + 1)).filterMap id := by
      refine mem_filterMap_id.2 ⟨a2 - (a1 + 1), ?_⟩
      rw [slotAt_drop]
      have : a1 + 1 + (a2 - (a1 + 1)) = a2 := by omega
      rw [this]
      exact ha2
    rw [hdec] at hnd
    simp only [List.map_append, List.map_cons] at hnd
    have := (List.nodup_append.1 hnd).2.1
    rw [List.nodup_cons] at this
    exact this.1 (hkz ▸ List.mem_map.2 ⟨z2, hmem2, rfl⟩)
  rcases Nat.lt_or_ge i1 i2 with hlt | hge
  · exact haux i1 i2 y1 y2 h1 h2 hk hlt
  · exact haux i2 i1 y2 y1 h2 h1 hk.symm (by omega)

theorem distinct_main_main {t : Table} (hnd : (keysList t).Nodup)
    {b1 b2 : Nat} {e1 e2 : MainEntry}
    (h1 : slotAt t.main_table b1 = some e1) (h2 : slotAt t.main_table b2 = some e2)
    (hk : e1.key = e2.key) : b1 = b2 :=
  nodup_list_inj (mains_key_nodup hnd) h1 h2 hk

theorem distinct_coll_coll {t : Table} (hnd : (keysList t).Nodup)
    {i1 i2 : Nat} {c1 c2 : CollisionEntry}
    (h1 : slotAt t.collision_table i1 = some c1)
    (h2 : slotAt t.collision_table i2 = some c2)
    (hk : c1.key = c2.key) : i1 = i2 :=
  nodup_list_inj (colls_key_nodup hnd) h1 h2 hk

theorem distinct_main_coll {t : Table} (hnd : (keysList t).Nodup)
    {b i : Nat} {e : MainEntry} {c : CollisionEntry}
    (hb : slotAt t.main_table b = some e)
    (hi : slotAt t.collision_table i = some c) : e.key ≠ c.key := by
  intro hk
  have hdisj := List.disjoint_of_nodup_append hnd
  have hm : e.key ∈ (mains t).map (·.key) :=
    List.mem_map.2 ⟨e, mem_filterMap_id.2 ⟨b, hb⟩, rfl⟩
  have hcm : e.key ∈ (colls t).map (·.key) :=
    hk ▸ List.mem_map.2 ⟨c, mem_filterMap_id.2 ⟨i, hi⟩, rfl⟩
  exact hdisj hm hcm


/-! ## Specification of `find` against the abstraction -/

theorem not_hasKV_iff {t : Table} {k : Nat} :
    (∀ v, ¬ HasKV t k v) ↔ k ∉ keysList t := by
  rw [← hasKey_iff_mem_keysList]
  constructor
  · rintro h ⟨v, hv⟩
    exact h v hv
  · intro h v hv
    exact h ⟨v, hv⟩

theorem cap_ne_zero_of_main {hash : Nat → Nat} {t : Table} {b : Nat} {e : MainEntry}
    (hwf : WF hash t) (h : slotAt t.main_table b = some e) : t.bucket_count ≠ 0 := by
  have := slotAt_lt_length h
  rw [hwf.mainLen] at this
  omega

theorem find_not_found {hash : Nat → Nat} {t : Table} {k : Nat}
    (hwf : WF hash t) (habs : ∀ v, ¬ HasKV t k v) (hc : t.bucket_count ≠ 0) :
    find hash t k =
      match slotAt t.main_table (mask t.bucket_count (hash k)) with
      | none => ⟨some (mask t.bucket_count (hash k)), none, none⟩
      | some e =>
          ⟨some (mask t.bucket_count (hash k)),
           some ((mask t.bucket_count (hash k) + e.chain_length) % t.bucket_count),
           none⟩ := by
  have hcpos : 0 < t.bucket_count := by omega
  obtain ⟨j, hj⟩ : ∃ j, t.bucket_count = 2 ^ j := hwf.pow2.resolve_left hc
  have hblt : mask t.bucket_count (hash k) < t.bucket_count := mask_lt hcpos _
  cases hmain : slotAt t.main_table (mask t.bucket_count (hash k)) with
  | none => simp only [find, if_neg hc, hmain]
  | some e =>
    have hkey : e.key ≠ k := by
      intro hkey
      exact habs e.value (Or.inl ⟨_, e, hmain, hkey, rfl⟩)
    by_cases hch : e.chain_length = 0
    · simp only [find, if_neg hc, hmain, if_neg hkey, if_pos hch]
      rw [hch, Nat.add_zero, Nat.mod_eq_of_lt hblt]
    · simp only [find, if_neg hc, hmain, if_neg hkey, if_neg hch]
      exact collision_scan_miss hj e.chain_length _ hblt (by
        intro m _ hhit
        obtain ⟨c, hcslot, _, hckey⟩ := hhit
        exact habs c.value (Or.inr ⟨_, c, hcslot, hckey, rfl⟩))

theorem find_found {hash : Nat → Nat} {t : Table} {k v : Nat}
    (hwf : WF hash t) (hkv : HasKV t k v) :
    (∃ b e, slotAt t.main_table b = some e ∧ e.key = k ∧ e.value = v ∧
       find hash t k = ⟨some b, none, some (false, b)⟩) ∨
    (∃ b i c, slotAt t.collision_table i = some c ∧ c.key = k ∧ c.value = v ∧
       c.main_index = b ∧ find hash t k = ⟨some b, some i, some (true, i)⟩) := by
  rcases hkv with ⟨b, e, hb, hk, hv⟩ | ⟨i, c, hi, hk, hv⟩
  · have hc : t.bucket_count ≠ 0 := cap_ne_zero_of_main hwf hb
    have hhome := hwf.home b e hb
    have hbeq : mask t.bucket_count (hash k) = b := by rw [← hk, hhome]
    refine Or.inl ⟨b, e, hb, hk, hv, ?_⟩
    simp only [find, if_neg hc, hbeq, hb, if_pos hk]
  · obtain ⟨hhome, e, hbm, o, ho, hio⟩ := hwf.ownerOf i c hi
    have hc : t.bucket_count ≠ 0 := cap_ne_zero_of_main hwf hbm
    have hcpos : 0 < t.bucket_count := by omega
    obtain ⟨j, hj⟩ : ∃ j, t.bucket_count = 2 ^ j := hwf.pow2.resolve_left hc
    have hbeq : mask t.bucket_count (hash k) = c.main_index := by rw [← hk, hhome]
    have hekey : e.key ≠ k := by
      intro hkey
      exact distinct_main_coll hwf.nodupKeys hbm hi (hkey.trans hk.symm)
    have hch : e.chain_length ≠ 0 := by omega
    have hchlt : e.chain_length < t.bucket_count := by
      have := hwf.chainLt _ e hbm
      omega
    have hblt : c.main_index < t.bucket_count := by
      rw [← hbeq]
      exact mask_lt hcpos _
    refine Or.inr ⟨c.main_index, i, c, hi, hk, hv, rfl, ?_⟩
    simp only [find, if_neg hc, hbeq, hbm, if_neg hekey, if_neg hch]
    have hscan := collision_scan_hit hj e.chain_length c.main_index o hblt ho
      (by rw [← hio]; exact ⟨c, hi, rfl, hk⟩)
      (by
        intro m' hm' hhit
        obtain ⟨c', hc', hcown, hckey⟩ := hhit
        have : (c.main_index + m') % t.bucket_count = i :=
          distinct_coll_coll hwf.nodupKeys hc' hi (hckey.trans hk.symm)
        rw [hio] at this
        have := win_inj hcpos (by omega) (by omega) this
        omega)
    rw [hscan, ← hio]

theorem findVal_none {hash : Nat → Nat} {t : Table} {k : Nat}
    (hwf : WF hash t) (habs : ∀ v, ¬ HasKV t k v) : findVal hash t k = none := by
  by_cases hc : t.bucket_count = 0
  · simp [findVal, find, hc, iterEnd]
  · rw [findVal, find_not_found hwf habs hc]
    cases hmain : slotAt t.main_table (mask t.bucket_count (hash k)) <;> simp

theorem findVal_some {hash : Nat → Nat} {t : Table} {k v : Nat}
    (hwf : WF hash t) (hkv : HasKV t k v) : findVal hash t k = some v := by
  rcases find_found hwf hkv with ⟨b, e, hb, hk, hv, hfind⟩ | ⟨b, i, c, hi, hk, hv, _, hfind⟩
  · rw [findVal, hfind]
    simp [read_ptr, hb, hv]
  · rw [findVal, hfind]
    simp [read_ptr, hi, hv]

theorem find_ptr_none {hash : Nat → Nat} {t : Table} {k : Nat}
    (hwf : WF hash t) (habs : ∀ v, ¬ HasKV t k v) :
    (find hash t k).value_ptr = none := by
  by_cases hc : t.bucket_count = 0
  · simp [find, hc, iterEnd]
  · rw [find_not_found hwf habs hc]
    cases hmain : slotAt t.main_table (mask t.bucket_count (hash k)) <;> simp

theorem find_ptr_some {hash : Nat → Nat} {t : Table} {k v : Nat}
    (hwf : WF hash t) (hkv : HasKV t k v) :
    (find hash t k).value_ptr.isSome := by
  rcases find_found hwf hkv with ⟨b, e, hb, hk, hv, hfind⟩ | ⟨b, i, c, hi, hk, hv, _, hfind⟩ <;>
    simp [hfind]


/-! ## Permutation bookkeeping for single-slot updates -/

theorem perm_delete {l : List (Option α)} {i : Nat} {y : α}
    (h : slotAt l i = some y) :
    l.filterMap id |>.Perm (y :: (l.set i none).filterMap id) := by
  have hlen := slotAt_lt_length h
  rw [filterMap_decomp_live h, filterMap_set none hlen]
  simpa using List.perm_middle

theorem perm_replace {l : List (Option α)} {i : Nat} {y : α}
    (h : slotAt l i = some y) (z : α) :
    (z :: l.filterMap id).Perm (y :: (l.set i (some z)).filterMap id) := by
  have hlen := slotAt_lt_length h
  rw [filterMap_decomp_live h, filterMap_set (some z) hlen]
  refine (List.Perm.cons z List.perm_middle).trans ?_
  refine (List.Perm.swap y z _).trans ?_
  exact List.Perm.cons y List.perm_middle.symm

theorem perm_insert {l : List (Option α)} {i : Nat}
    (hlen : i < l.length) (h : slotAt l i = none) (z : α) :
    ((l.set i (some z)).filterMap id).Perm (z :: l.filterMap id) := by
  rw [filterMap_decomp_free hlen h, filterMap_set (some z) hlen]
  simpa using List.perm_middle


/-! ## Valid cursors and the removal specification -/

/-- The cursor states that `remove(iterator)` is specified on: the cursor's
`value_ptr` points at a live slot consistent with its indices (the states
produced by `find`, `try_insert`, `begin` and `operator++`). -/
def validIter (t : Table) (it : Iter) : Prop :=
  match it.collision_index, it.bucket_index with
  | none, some b => it.value_ptr = some (false, b) ∧ ∃ e, slotAt t.main_table b = some e
  | some i, bi => it.value_ptr = some (true, i) ∧
      ∃ c, slotAt t.collision_table i = some c ∧ (bi = none ∨ bi = some c.main_index)
  | none, none => False

/-- Key stored at the slot a cursor points to. -/
def iterKey (t : Table) (it : Iter) : Nat :=
  match it.value_ptr with
  | some (false, i) => ((slotAt t.main_table i).map (·.key)).getD 0
  | some (true, i) => ((slotAt t.collision_table i).map (·.key)).getD 0
  | none => 0

/-- Value stored at the slot a cursor points to. -/
def iterVal (t : Table) (it : Iter) : Nat :=
  match it.value_ptr with
  | some (false, i) => ((slotAt t.main_table i).map (·.value)).getD 0
  | some (true, i) => ((slotAt t.collision_table i).map (·.value)).getD 0
  | none => 0

theorem content_after_delete {t t2 : Table} {K V : Nat}
    (hnd : (keysList t).Nodup)
    (hperm : (old_entries t).Perm ((K, V) :: old_entries t2)) :
    (keysList t).Perm (K :: keysList t2) ∧
    (K ∉ keysList t2) ∧
    (∀ k v, HasKV t2 k v ↔ (HasKV t k v ∧ k ≠ K)) := by
  have hkeys : (keysList t).Perm (K :: keysList t2) := by
    rw [keysList_eq_map_old, keysList_eq_map_old]
    exact hperm.map Prod.fst
  have hnd2 : (K :: keysList t2).Nodup := (hkeys.nodup_iff).1 hnd
  rw [List.nodup_cons] at hnd2
  refine ⟨hkeys, hnd2.1, ?_⟩
  intro k v
  constructor
  · intro h2
    have hm2 : (k, v) ∈ old_entries t2 := mem_old_entries.2 h2
    have hmt : (k, v) ∈ old_entries t := hperm.mem_iff.2 (List.mem_cons_of_mem _ hm2)
    refine ⟨mem_old_entries.1 hmt, ?_⟩
    intro hk
    apply hnd2.1
    rw [← hk, keysList_eq_map_old]
    exact List.mem_map.2 ⟨(k, v), hm2, rfl⟩
  · rintro ⟨h1, hne⟩
    have hmt : (k, v) ∈ old_entries t := mem_old_entries.2 h1
    have := hperm.mem_iff.1 hmt
    rcases List.mem_cons.1 this with heq | hm2
    · cases heq
      exact absurd rfl hne
    · exact mem_old_entries.1 hm2

theorem rebuild_wf {hash : Nat → Nat} {t : Table} {b cl : Nat} {e : MainEntry}
    {coll2 : List (Option CollisionEntry)} {kb W : Nat}
    (hwf : WF hash t)
    (he : slotAt t.main_table b = some e)
    (hch : e.chain_length = cl + 1)
    (hc2len : coll2.length = t.bucket_count)
    (hlast : ∃ lastc, slotAt t.collision_table ((b + cl) % t.bucket_count) = some lastc ∧
        lastc.main_index = b)
    (hdel : slotAt coll2 ((b + cl) % t.bucket_count) = none)
    (hother : ∀ i, i ≠ (b + cl) % t.bucket_count →
        slotAt coll2 i = slotAt t.collision_table i ∨
        (∃ c c', slotAt t.collision_table i = some c ∧ slotAt coll2 i = some c' ∧
          c.main_index = b ∧ c'.main_index = b ∧
          mask t.bucket_count (hash c'.key) = b))
    (hkb : mask t.bucket_count (hash kb) = b) :
    (∀ b' e', slotAt (t.main_table.set b
        (some ⟨kb, W, shrink_chain coll2 t.bucket_count b cl⟩)) b' = some e' →
        mask t.bucket_count (hash e'.key) = b') ∧
    (∀ i c, slotAt coll2 i = some c →
        mask t.bucket_count (hash c.key) = c.main_index ∧
        ∃ e', slotAt (t.main_table.set b
            (some ⟨kb, W, shrink_chain coll2 t.bucket_count b cl⟩)) c.main_index = some e' ∧
          ∃ o, o < e'.chain_length ∧ i = (c.main_index + o) % t.bucket_count) ∧
    (∀ b' e', slotAt (t.main_table.set b
        (some ⟨kb, W, shrink_chain coll2 t.bucket_count b cl⟩)) b' = some e' →
        e'.chain_length ≠ 0 →
        ∃ c, slotAt coll2 ((b' + (e'.chain_length - 1)) % t.bucket_count) = some c ∧
          c.main_index = b') ∧
    (∀ b' e', slotAt (t.main_table.set b
        (some ⟨kb, W, shrink_chain coll2 t.bucket_count b cl⟩)) b' = some e' →
        2 * e'.chain_length < t.bucket_count) := by
  have hc : t.bucket_count ≠ 0 := cap_ne_zero_of_main hwf he
  have hcpos : 0 < t.bucket_count := by omega
  obtain ⟨j, hj⟩ : ∃ j, t.bucket_count = 2 ^ j := hwf.pow2.resolve_left hc
  have hblt : b < t.bucket_count := by
    have := slotAt_lt_length he
    rwa [hwf.mainLen] at this
  have hchcap : 2 * e.chain_length < t.bucket_count := hwf.chainLt b e he
  have hmlen : b < t.main_table.length := slotAt_lt_length he
  have hset_b : slotAt (t.main_table.set b
      (some ⟨kb, W, shrink_chain coll2 t.bucket_count b cl⟩)) b =
      some ⟨kb, W, shrink_chain coll2 t.bucket_count b cl⟩ := slotAt_set_self _ hmlen
  have hset_ne : ∀ b', b ≠ b' → slotAt (t.main_table.set b
      (some ⟨kb, W, shrink_chain coll2 t.bucket_count b cl⟩)) b' =
      slotAt t.main_table b' := fun b' hne => slotAt_set_ne _ hne
  have hncle : shrink_chain coll2 t.bucket_count b cl ≤ cl := shrink_chain_le _ _ _ _
  -- owned collision slots of `b` in `coll2` sit at offsets strictly below `cl`
  have howned : ∀ i c, slotAt coll2 i = some c → c.main_index = b →
      ∃ o, o < cl ∧ i = (b + o) % t.bucket_count := by
    intro i c hslot hown
    have hne : i ≠ (b + cl) % t.bucket_count := by
      intro heq
      rw [heq, hdel] at hslot
      cases hslot
    rcases hother i hne with hsame | ⟨c1, c', hc1, hc', hc1own, _, _⟩
    · rw [hsame] at hslot
      obtain ⟨_, e0, he0, o, ho, hio⟩ := hwf.ownerOf i c hslot
      rw [hown] at he0 hio
      rw [he] at he0
      cases he0
      refine ⟨o, ?_, hio⟩
      have : o ≠ cl := by
        intro hocl
        rw [hocl] at hio
        exact hne hio
      omega
    · obtain ⟨_, e0, he0, o, ho, hio⟩ := hwf.ownerOf i c1 hc1
      rw [hc1own] at he0 hio
      rw [he] at he0
      cases he0
      refine ⟨o, ?_, hio⟩
      have : o ≠ cl := by
        intro hocl
        rw [hocl] at hio
        exact hne hio
      omega
  refine ⟨?_, ?_, ?_, ?_⟩
  · -- home
    intro b' e' hb'
    by_cases hbb : b = b'
    · subst hbb
      rw [hset_b] at hb'
      cases hb'
      exact hkb
    · rw [hset_ne b' hbb] at hb'
      exact hwf.home b' e' hb'
  · -- ownerOf
    intro i c hslot
    have hne : i ≠ (b + cl) % t.bucket_count := by
      intro heq
      rw [heq, hdel] at hslot
      cases hslot
    by_cases hcb : c.main_index = b
    · obtain ⟨o, hocl, hio⟩ := howned i c hslot hcb
      have honc : o < shrink_chain coll2 t.bucket_count b cl := by
        refine shrink_chain_gt hj ?_ hocl
        rw [← hio]
        exact ⟨c, hslot, hcb⟩
      have hmask : mask t.bucket_count (hash c.key) = c.main_index := by
        rcases hother i hne with hsame | ⟨c1, c', hc1, hc', _, hc'own, hc'mask⟩
        · rw [hsame] at hslot
          exact (hwf.ownerOf i c hslot).1
        · rw [hc'] at hslot
          cases hslot
          rw [hcb]
          exact hc'mask
      exact ⟨hmask, ⟨kb, W, shrink_chain coll2 t.bucket_count b cl⟩,
        by rw [hcb]; exact hset_b, o, honc, by rw [hcb]; exact hio⟩
    · -- a slot not owned by `b` is never rewritten
      have hsame : slotAt coll2 i = slotAt t.collision_table i := by
        rcases hother i hne with hsame | ⟨c1, c', hc1, hc', _, hc'own, _⟩
        · exact hsame
        · rw [hc'] at hslot
          cases hslot
          exact absurd hc'own hcb
      rw [hsame] at hslot
      obtain ⟨hmask, e0, he0, o, ho, hio⟩ := hwf.ownerOf i c hslot
      refine ⟨hmask, e0, ?_, o, ho, hio⟩
      rw [hset_ne c.main_index ?_]
      · exact he0
      · intro hbc
        rw [← hbc] at he0
        rw [he] at he0
        cases he0
        exact hcb (by rw [← hbc])
  · -- tailOwn
    intro b' e' hb' hch'
    by_cases hbb : b = b'
    · subst hbb
      rw [hset_b] at hb'
      cases hb'
      rcases shrink_chain_own hj cl with hzero | hown
      · exact absurd hzero hch'
      · exact hown
    · rw [hset_ne b' hbb] at hb'
      obtain ⟨ct, hct, hctown⟩ := hwf.tailOwn b' e' hb' hch'
      have hne : (b' + (e'.chain_length - 1)) % t.bucket_count ≠
          (b + cl) % t.bucket_count := by
        intro heq
        obtain ⟨lastc, hlastc, hlastown⟩ := hlast
        rw [heq, hlastc] at hct
        cases hct
        exact hbb (hctown ▸ hlastown.symm ▸ rfl)
      rcases hother _ hne with hsame | ⟨c1, c', hc1, hc', hc1own, _, _⟩
      · rw [hsame]
        exact ⟨ct, hct, hctown⟩
      · rw [hc1] at hct
        cases hct
        exact absurd (hc1own.symm.trans hctown) hbb
  · -- chainLt
    intro b' e' hb'
    by_cases hbb : b = b'
    · subst hbb
      rw [hset_b] at hb'
      cases hb'
      simp only
      omega
    · rw [hset_ne b' hbb] at hb'
      exact hwf.chainLt b' e' hb'


theorem perm_assemble {pm pm2 pc pc2 : List (Nat × Nat)} {X yp : Nat × Nat}
    (hm : (X :: pm).Perm (yp :: pm2)) (hc : pc.Perm (X :: pc2)) :
    (pm ++ pc).Perm (yp :: (pm2 ++ pc2)) := by
  refine ((List.Perm.append_left pm hc).trans ?_).trans (hm.append_right pc2)
  exact List.perm_middle

theorem remove_primary_nochain {hash : Nat → Nat} {t : Table} {b : Nat} {e : MainEntry}
    (hwf : WF hash t) (he : slotAt t.main_table b = some e)
    (hch : e.chain_length = 0) :
    WF hash ⟨t.bucket_count, t.element_count - 1, t.main_table.set b none,
        t.collision_table⟩ ∧
    0 < t.element_count ∧
    (old_entries t).Perm ((e.key, e.value) ::
      old_entries ⟨t.bucket_count, t.element_count - 1, t.main_table.set b none,
        t.collision_table⟩) := by
  set t2 : Table := ⟨t.bucket_count, t.element_count - 1, t.main_table.set b none,
      t.collision_table⟩ with ht2
  have hmlen : b < t.main_table.length := slotAt_lt_length he
  have hperm : (old_entries t).Perm ((e.key, e.value) :: old_entries t2) := by
    rw [old_entries_eq, old_entries_eq]
    have hm := (perm_delete he).map (fun x : MainEntry => (x.key, x.value))
    simp only [List.map_cons] at hm
    exact hm.append_right _
  have hkeys : (keysList t).Perm (e.key :: keysList t2) := by
    rw [keysList_eq_map_old, keysList_eq_map_old]
    exact hperm.map Prod.fst
  have hcount : t.element_count = (keysList t2).length + 1 := by
    rw [hwf.countEq, hkeys.length_eq]
    rfl
  have hnd2 : (e.key :: keysList t2).Nodup := hkeys.nodup_iff.1 hwf.nodupKeys
  refine ⟨?_, by omega, hperm⟩
  refine ⟨?_, ?_, ?_, ?_, ?_, ?_, ?_, ?_, ?_, ?_⟩
  · simp [ht2, hwf.mainLen]
  · simp [ht2, hwf.collLen]
  · exact hwf.pow2
  · show t.element_count - 1 = (keysList t2).length
    omega
  · show t.element_count - 1 ≤ t.bucket_count
    have := hwf.countLe
    omega
  · intro b' e' hb'
    by_cases hbb : b = b'
    · subst hbb
      rw [show t2.main_table = t.main_table.set b none from rfl,
        slotAt_set_self none hmlen] at hb'
      cases hb'
    · rw [show t2.main_table = t.main_table.set b none from rfl,
        slotAt_set_ne none hbb] at hb'
      exact hwf.home b' e' hb'
  · intro i c hslot
    rw [show t2.collision_table = t.collision_table from rfl] at hslot
    obtain ⟨hmask, e0, he0, o, ho, hio⟩ := hwf.ownerOf i c hslot
    refine ⟨hmask, e0, ?_, o, ho, hio⟩
    have hne : b ≠ c.main_index := by
      intro hbc
      rw [← hbc, he] at he0
      cases he0
      rw [hch] at ho
      omega
    rw [show t2.main_table = t.main_table.set b none from rfl, slotAt_set_ne none hne]
    exact he0
  · intro b' e' hb' hch'
    by_cases hbb : b = b'
    · subst hbb
      rw [show t2.main_table = t.main_table.set b none from rfl,
        slotAt_set_self none hmlen] at hb'
      cases hb'
    · rw [show t2.main_table = t.main_table.set b none from rfl,
        slotAt_set_ne none hbb] at hb'
      exact hwf.tailOwn b' e' hb' hch'
  · intro b' e' hb'
    by_cases hbb : b = b'
    · subst hbb
      rw [show t2.main_table = t.main_table.set b none from rfl,
        slotAt_set_self none hmlen] at hb'
      cases hb'
    · rw [show t2.main_table = t.main_table.set b none from rfl,
        slotAt_set_ne none hbb] at hb'
      exact hwf.chainLt b' e' hb'
  · exact (List.nodup_cons.1 hnd2).2

theorem remove_rebuild_spec {hash : Nat → Nat} {t : Table} {b cl : Nat} {e : MainEntry}
    {coll2 : List (Option CollisionEntry)} {kb W : Nat}
    (hwf : WF hash t)
    (he : slotAt t.main_table b = some e)
    (hch : e.chain_length = cl + 1)
    (hc2len : coll2.length = t.bucket_count)
    (hlast : ∃ lastc, slotAt t.collision_table ((b + cl) % t.bucket_count) = some lastc ∧
        lastc.main_index = b)
    (hdel : slotAt coll2 ((b + cl) % t.bucket_count) = none)
    (hother : ∀ i, i ≠ (b + cl) % t.bucket_count →
        slotAt coll2 i = slotAt t.collision_table i ∨
        (∃ c c', slotAt t.collision_table i = some c ∧ slotAt coll2 i = some c' ∧
          c.main_index = b ∧ c'.main_index = b ∧
          mask t.bucket_count (hash c'.key) = b))
    (hkb : mask t.bucket_count (hash kb) = b)
    {K V : Nat}
    (hperm : (old_entries t).Perm ((K, V) ::
      old_entries ⟨t.bucket_count, t.element_count - 1,
        t.main_table.set b (some ⟨kb, W, shrink_chain coll2 t.bucket_count b cl⟩),
        coll2⟩)) :
    WF hash ⟨t.bucket_count, t.element_count - 1,
      t.main_table.set b (some ⟨kb, W, shrink_chain coll2 t.bucket_count b cl⟩),
      coll2⟩ ∧
    0 < t.element_count := by
  obtain ⟨hhome, howner, htail, hchainlt⟩ :=
    rebuild_wf hwf he hch hc2len hlast hdel hother (W := W) hkb
  set t2 : Table := ⟨t.bucket_count, t.element_count - 1,
    t.main_table.set b (some ⟨kb, W, shrink_chain coll2 t.bucket_count b cl⟩),
    coll2⟩ with ht2
  have hkeys : (keysList t).Perm (K :: keysList t2) := by
    rw [keysList_eq_map_old, keysList_eq_map_old]
    exact hperm.map Prod.fst
  have hcount : t.element_count = (keysList t2).length + 1 := by
    rw [hwf.countEq, hkeys.length_eq]
    rfl
  have hnd2 : (K :: keysList t2).Nodup := hkeys.nodup_iff.1 hwf.nodupKeys
  refine ⟨⟨?_, ?_, hwf.pow2, ?_, ?_, hhome, howner, htail, hchainlt, ?_⟩, by omega⟩
  · simp [ht2, hwf.mainLen]
  · exact hc2len
  · show t.element_count - 1 = (keysList t2).length
    omega
  · show t.element_count - 1 ≤ t.bucket_count
    have := hwf.countLe
    omega
  · exact (List.nodup_cons.1 hnd2).2

/-- Removal through a valid cursor: the capacity is unchanged, the live count
drops by one, and the live entries lose exactly the pair stored at the cursor.
This is the state part of `remove(iterator)`; the returned cursor is analysed
separately. -/
theorem remove_spec {hash : Nat → Nat} {t : Table} {it : Iter}
    (hwf : WF hash t) (hv : validIter t it) :
    WF hash (remove t it).1 ∧
    (remove t it).1.bucket_count = t.bucket_count ∧
    (remove t it).1.element_count = t.element_count - 1 ∧
    0 < t.element_count ∧
    (old_entries t).Perm ((iterKey t it, iterVal t it) :: old_entries (remove t it).1) := by
  obtain ⟨bi, ci, vp⟩ := it
  cases ci with
  | none =>
    cases bi with
    | none => exact absurd hv (by simp [validIter])
    | some b =>
      obtain ⟨hvp, e, he⟩ : vp = some (false, b) ∧ ∃ e, slotAt t.main_table b = some e := hv
      subst hvp
      have hkey : iterKey t ⟨some b, none, some (false, b)⟩ = e.key := by
        simp [iterKey, he]
      have hval : iterVal t ⟨some b, none, some (false, b)⟩ = e.value := by
        simp [iterVal, he]
      rw [hkey, hval]
      by_cases hch : e.chain_length = 0
      · -- primary slot with no chain: clear the slot
        have hrem : remove t ⟨some b, none, some (false, b)⟩ =
            (⟨t.bucket_count, t.element_count - 1, t.main_table.set b none,
              t.collision_table⟩,
             iterNext t ⟨some b, none, some (false, b)⟩) := by
          simp only [remove, Option.getD_some, he, hch]
          simp
        rw [hrem]
        obtain ⟨hwf2, hpos, hperm⟩ := remove_primary_nochain hwf he hch
        exact ⟨hwf2, rfl, rfl, hpos, hperm⟩
      · -- primary slot with a chain: relocate the tail into the primary slot
        obtain ⟨cl, hcl⟩ : ∃ cl, e.chain_length = cl + 1 :=
          ⟨e.chain_length - 1, by omega⟩
        have hc : t.bucket_count ≠ 0 := cap_ne_zero_of_main hwf he
        have hcpos : 0 < t.bucket_count := by omega
        obtain ⟨j, hj⟩ : ∃ j, t.bucket_count = 2 ^ j := hwf.pow2.resolve_left hc
        obtain ⟨ct, hct0, hctown⟩ := hwf.tailOwn b e he hch
        have hct0cl : slotAt t.collision_table ((b + cl) % t.bucket_count) = some ct := by
          rw [hcl] at hct0
          simpa using hct0
        have hctm : slotAt t.collision_table (mask t.bucket_count (b + cl)) = some ct := by
          rw [mask_step hj]
          exact hct0cl
        have hcl2 : e.chain_length - 1 = cl := by omega
        have hrem : remove t ⟨some b, none, some (false, b)⟩ =
            (⟨t.bucket_count, t.element_count - 1,
              t.main_table.set b (some ⟨ct.key, ct.value,
                shrink_chain
                  (t.collision_table.set (mask t.bucket_count (b + cl)) none)
                  t.bucket_count b cl⟩),
              t.collision_table.set (mask t.bucket_count (b + cl)) none⟩,
             ⟨some b, none, some (false, b)⟩) := by
          simp only [remove, Option.getD_some, he, if_pos hch, hcl2, hctm]
        rw [hrem]
        have hidxlt : (b + cl) % t.bucket_count < t.collision_table.length := by
          rw [hwf.collLen]
          exact Nat.mod_lt _ hcpos
        have hcollen : (t.collision_table.set
            (mask t.bucket_count (b + cl)) none).length = t.bucket_count := by
          rw [List.length_set, hwf.collLen]
        have hdel : slotAt (t.collision_table.set
            (mask t.bucket_count (b + cl)) none) ((b + cl) % t.bucket_count) = none := by
          rw [mask_step hj]
          exact slotAt_set_self none hidxlt
        have hother : ∀ i, i ≠ (b + cl) % t.bucket_count →
            slotAt (t.collision_table.set (mask t.bucket_count (b + cl)) none) i =
              slotAt t.collision_table i ∨
            (∃ c c', slotAt t.collision_table i = some c ∧
              slotAt (t.collision_table.set (mask t.bucket_count (b + cl)) none) i = some c' ∧
              c.main_index = b ∧ c'.main_index = b ∧
              mask t.bucket_count (hash c'.key) = b) := by
          intro i hne
          refine Or.inl ?_
          rw [mask_step hj]
          exact slotAt_set_ne none (fun h => hne h.symm)
        have hkb : mask t.bucket_count (hash ct.key) = b := by
          have := (hwf.ownerOf _ ct hct0cl).1
          rw [this, hctown]
        have hperm : (old_entries t).Perm ((e.key, e.value) ::
            old_entries ⟨t.bucket_count, t.element_count - 1,
              t.main_table.set b (some ⟨ct.key, ct.value,
                shrink_chain
                  (t.collision_table.set (mask t.bucket_count (b + cl)) none)
                  t.bucket_count b cl⟩),
              t.collision_table.set (mask t.bucket_count (b + cl)) none⟩) := by
          rw [old_entries_eq, old_entries_eq]
          refine perm_assemble (X := (ct.key, ct.value)) ?_ ?_
          · have hm := (perm_replace he ⟨ct.key, ct.value,
              shrink_chain
                (t.collision_table.set (mask t.bucket_count (b + cl)) none)
                t.bucket_count b cl⟩).map
              (fun x : MainEntry => (x.key, x.value))
            simpa using hm
          · have hcperm := (perm_delete hctm).map
              (fun x : CollisionEntry => (x.key, x.value))
            simpa using hcperm
        have hres := remove_rebuild_spec (W := ct.value) hwf he hcl hcollen
          ⟨ct, hct0cl, hctown⟩ hdel hother hkb
          (K := e.key) (V := e.value) hperm
        exact ⟨hres.1, rfl, rfl, hres.2, hperm⟩
  | some ci =>
    obtain ⟨hvp, c0, hc0, hbi⟩ : vp = some (true, ci) ∧
        ∃ c, slotAt t.collision_table ci = some c ∧
          (bi = none ∨ bi = some c.main_index) := hv
    subst hvp
    have hkey : iterKey t ⟨bi, some ci, some (true, ci)⟩ = c0.key := by
      simp [iterKey, hc0]
    have hval : iterVal t ⟨bi, some ci, some (true, ci)⟩ = c0.value := by
      simp [iterVal, hc0]
    rw [hkey, hval]
    obtain ⟨hmask0, e, he, o0, ho0, hio0⟩ := hwf.ownerOf ci c0 hc0
    have hc : t.bucket_count ≠ 0 := cap_ne_zero_of_main hwf he
    have hcpos : 0 < t.bucket_count := by omega
    obtain ⟨j, hj⟩ : ∃ j, t.bucket_count = 2 ^ j := hwf.pow2.resolve_left hc
    have hch : e.chain_length ≠ 0 := by omega
    obtain ⟨cl, hcl⟩ : ∃ cl, e.chain_length = cl + 1 := ⟨e.chain_length - 1, by omega⟩
    have hcl2 : e.chain_length - 1 = cl := by omega
    obtain ⟨lastc, hlast0, hlastown⟩ := hwf.tailOwn c0.main_index e he hch
    have hlastcl : slotAt t.collision_table ((c0.main_index + cl) % t.bucket_count) =
        some lastc := by
      rw [hcl] at hlast0
      simpa using hlast0
    have hlastm : slotAt t.collision_table (mask t.bucket_count (c0.main_index + cl)) =
        some lastc := by
      rw [mask_step hj]
      exact hlastcl
    have hbgetD : bi.getD c0.main_index = c0.main_index := by
      rcases hbi with hbi | hbi <;> subst hbi <;> simp
    have hidxlt : (c0.main_index + cl) % t.bucket_count < t.collision_table.length := by
      rw [hwf.collLen]
      exact Nat.mod_lt _ hcpos
    have hkb : mask t.bucket_count (hash e.key) = c0.main_index := hwf.home _ e he
    by_cases hlc : mask t.bucket_count (c0.main_index + cl) = ci
    · -- the removed collision slot is the chain tail itself
      have hc0last : lastc = c0 := by
        rw [hlc, hc0] at hlastm
        cases hlastm
        rfl
      have hrem : remove t ⟨bi, some ci, some (true, ci)⟩ =
          (⟨t.bucket_count, t.element_count - 1,
            t.main_table.set c0.main_index (some ⟨e.key, e.value,
              shrink_chain
                (t.collision_table.set (mask t.bucket_count (c0.main_index + cl)) none)
                t.bucket_count c0.main_index cl⟩),
            t.collision_table.set (mask t.bucket_count (c0.main_index + cl)) none⟩,
           iterNext t ⟨bi, some ci, some (true, ci)⟩) := by
        simp only [remove, hc0, Option.elim_some, hbgetD, he, hcl2, hlastm, if_pos hlc]
      rw [hrem]
      have hcollen : (t.collision_table.set
          (mask t.bucket_count (c0.main_index + cl)) none).length = t.bucket_count := by
        rw [List.length_set, hwf.collLen]
      have hdel : slotAt (t.collision_table.set
          (mask t.bucket_count (c0.main_index + cl)) none)
          ((c0.main_index + cl) % t.bucket_count) = none := by
        rw [mask_step hj]
        exact slotAt_set_self none hidxlt
      have hother : ∀ i, i ≠ (c0.main_index + cl) % t.bucket_count →
          slotAt (t.collision_table.set (mask t.bucket_count (c0.main_index + cl)) none) i =
            slotAt t.collision_table i ∨
          (∃ c c', slotAt t.collision_table i = some c ∧
            slotAt (t.collision_table.set
              (mask t.bucket_count (c0.main_index + cl)) none) i = some c' ∧
            c.main_index = c0.main_index ∧ c'.main_index = c0.main_index ∧
            mask t.bucket_count (hash c'.key) = c0.main_index) := by
        intro i hne
        refine Or.inl ?_
        rw [mask_step hj]
        exact slotAt_set_ne none (fun h => hne h.symm)
      have hperm : (old_entries t).Perm ((c0.key, c0.value) ::
          old_entries ⟨t.bucket_count, t.element_count - 1,
            t.main_table.set c0.main_index (some ⟨e.key, e.value,
              shrink_chain
                (t.collision_table.set (mask t.bucket_count (c0.main_index + cl)) none)
                t.bucket_count c0.main_index cl⟩),
            t.collision_table.set (mask t.bucket_count (c0.main_index + cl)) none⟩) := by
        rw [old_entries_eq, old_entries_eq]
        have hpm : ((mains t).map (fun x : MainEntry => (x.key, x.value))).Perm
            (((t.main_table.set c0.main_index (some ⟨e.key, e.value,
              shrink_chain
                (t.collision_table.set (mask t.bucket_count (c0.main_index + cl)) none)
                t.bucket_count c0.main_index cl⟩)).filterMap id).map
              (fun x : MainEntry => (x.key, x.value))) := by
          have hm := (perm_replace he ⟨e.key, e.value,
            shrink_chain
              (t.collision_table.set (mask t.bucket_count (c0.main_index + cl)) none)
              t.bucket_count c0.main_index cl⟩).map
            (fun x : MainEntry => (x.key, x.value))
          simp only [List.map_cons] at hm
          exact hm.cons_inv
        have hcp := (perm_delete hlastm).map
          (fun x : CollisionEntry => (x.key, x.value))
        simp only [List.map_cons, hc0last] at hcp
        exact perm_assemble (X := (c0.key, c0.value))
          (hpm.cons (c0.key, c0.value)) hcp
      have hres := remove_rebuild_spec (W := e.value) hwf he hcl hcollen
        ⟨lastc, hlastcl, hlastown⟩ hdel hother hkb
        (K := c0.key) (V := c0.value) hperm
      exact ⟨hres.1, rfl, rfl, hres.2, hperm⟩
    · -- the removed collision slot is interior: the tail entry moves into it
      have hcine : ci ≠ mask t.bucket_count (c0.main_index + cl) := fun h => hlc h.symm
      have hY : slotAt (t.collision_table.set ci
          (some ⟨lastc.key, lastc.value, c0.main_index⟩))
          (mask t.bucket_count (c0.main_index + cl)) = some lastc := by
        rw [slotAt_set_ne _ hcine]
        exact hlastm
      have hrem : remove t ⟨bi, some ci, some (true, ci)⟩ =
          (⟨t.bucket_count, t.element_count - 1,
            t.main_table.set c0.main_index (some ⟨e.key, e.value,
              shrink_chain
                ((t.collision_table.set ci
                    (some ⟨lastc.key, lastc.value, c0.main_index⟩)).set
                  (mask t.bucket_count (c0.main_index + cl)) none)
                t.bucket_count c0.main_index cl⟩),
            (t.collision_table.set ci
                (some ⟨lastc.key, lastc.value, c0.main_index⟩)).set
              (mask t.bucket_count (c0.main_index + cl)) none⟩,
           ⟨bi, some ci, some (true, ci)⟩) := by
        simp only [remove, hc0, Option.elim_some, hbgetD, he, hcl2, hlastm, if_neg hlc]
      rw [hrem]
      have hcollen : (((t.collision_table.set ci
          (some ⟨lastc.key, lastc.value, c0.main_index⟩)).set
            (mask t.bucket_count (c0.main_index + cl)) none)).length =
          t.bucket_count := by
        rw [List.length_set, List.length_set, hwf.collLen]
      have hidxltY : (c0.main_index + cl) % t.bucket_count <
          (t.collision_table.set ci
            (some ⟨lastc.key, lastc.value, c0.main_index⟩)).length := by
        rw [List.length_set, hwf.collLen]
        exact Nat.mod_lt _ hcpos
      have hdel : slotAt ((t.collision_table.set ci
          (some ⟨lastc.key, lastc.value, c0.main_index⟩)).set
            (mask t.bucket_count (c0.main_index + cl)) none)
          ((c0.main_index + cl) % t.bucket_count) = none := by
        rw [mask_step hj]
        exact slotAt_set_self none hidxltY
      have hmasklast : mask t.bucket_count (hash lastc.key) = c0.main_index := by
        have := (hwf.ownerOf _ lastc hlastcl).1
        rw [this, hlastown]
      have hother : ∀ i, i ≠ (c0.main_index + cl) % t.bucket_count →
          slotAt ((t.collision_table.set ci
            (some ⟨lastc.key, lastc.value, c0.main_index⟩)).set
              (mask t.bucket_count (c0.main_index + cl)) none) i =
            slotAt t.collision_table i ∨
          (∃ c c', slotAt t.collision_table i = some c ∧
            slotAt ((t.collision_table.set ci
              (some ⟨lastc.key, lastc.value, c0.main_index⟩)).set
                (mask t.bucket_count (c0.main_index + cl)) none) i = some c' ∧
            c.main_index = c0.main_index ∧ c'.main_index = c0.main_index ∧
            mask t.bucket_count (hash c'.key) = c0.main_index) := by
        intro i hne
        have hne2 : mask t.bucket_count (c0.main_index + cl) ≠ i := by
          rw [mask_step hj]
          exact fun h => hne h.symm
        by_cases hici : i = ci
        · subst hici
          refine Or.inr ⟨c0, ⟨lastc.key, lastc.value, c0.main_index⟩, hc0, ?_, rfl, rfl,
            hmasklast⟩
          rw [slotAt_set_ne none hne2, slotAt_set_self _ (slotAt_lt_length hc0)]
        · refine Or.inl ?_
          rw [slotAt_set_ne none hne2, slotAt_set_ne _ (fun h => hici h.symm)]
      have hperm : (old_entries t).Perm ((c0.key, c0.value) ::
          old_entries ⟨t.bucket_count, t.element_count - 1,
            t.main_table.set c0.main_index (some ⟨e.key, e.value,
              shrink_chain
                ((t.collision_table.set ci
                    (some ⟨lastc.key, lastc.value, c0.main_index⟩)).set
                  (mask t.bucket_count (c0.main_index + cl)) none)
                t.bucket_count c0.main_index cl⟩),
            (t.collision_table.set ci
                (some ⟨lastc.key, lastc.value, c0.main_index⟩)).set
              (mask t.bucket_count (c0.main_index + cl)) none⟩) := by
        rw [old_entries_eq, old_entries_eq]
        have hpm : ((mains t).map (fun x : MainEntry => (x.key, x.value))).Perm
            (((t.main_table.set c0.main_index (some ⟨e.key, e.value,
              shrink_chain
                ((t.collision_table.set ci
                    (some ⟨lastc.key, lastc.value, c0.main_index⟩)).set
                  (mask t.bucket_count (c0.main_index + cl)) none)
                t.bucket_count c0.main_index cl⟩)).filterMap id).map
              (fun x : MainEntry => (x.key, x.value))) := by
          have hm := (perm_replace he ⟨e.key, e.value,
            shrink_chain
              ((t.collision_table.set ci
                  (some ⟨lastc.key, lastc.value, c0.main_index⟩)).set
                (mask t.bucket_count (c0.main_index + cl)) none)
              t.bucket_count c0.main_index cl⟩).map
            (fun x : MainEntry => (x.key, x.value))
          simp only [List.map_cons] at hm
          exact hm.cons_inv
        have hrep := (perm_replace hc0 ⟨lastc.key, lastc.value, c0.main_index⟩).map
          (fun x : CollisionEntry => (x.key, x.value))
        simp only [List.map_cons] at hrep
        have hdelp := (perm_delete hY).map
          (fun x : CollisionEntry => (x.key, x.value))
        simp only [List.map_cons] at hdelp
        have hcp : ((colls t).map (fun x : CollisionEntry => (x.key, x.value))).Perm
            ((c0.key, c0.value) ::
              ((((t.collision_table.set ci
                  (some ⟨lastc.key, lastc.value, c0.main_index⟩)).set
                    (mask t.bucket_count (c0.main_index + cl)) none).filterMap id).map
                (fun x : CollisionEntry => (x.key, x.value)))) := by
          have h1 : ((lastc.key, lastc.value) ::
              (colls t).map (fun x : CollisionEntry => (x.key, x.value))).Perm
              ((lastc.key, lastc.value) :: (c0.key, c0.value) ::
                ((((t.collision_table.set ci
                    (some ⟨lastc.key, lastc.value, c0.main_index⟩)).set
                      (mask t.bucket_count (c0.main_index + cl)) none).filterMap id).map
                  (fun x : CollisionEntry => (x.key, x.value)))) := by
            refine hrep.trans ?_
            refine (List.Perm.cons _ hdelp).trans ?_
            exact List.Perm.swap _ _ _
          exact h1.cons_inv
        exact perm_assemble (X := (c0.key, c0.value))
          (hpm.cons (c0.key, c0.value)) hcp
      have hres := remove_rebuild_spec (W := e.value) hwf he hcl hcollen
        ⟨lastc, hlastcl, hlastown⟩ hdel hother hkb
        (K := c0.key) (V := c0.value) hperm
      exact ⟨hres.1, rfl, rfl, hres.2, hperm⟩


/-! ## Support lemmas for insertion and growth -/

theorem filterMap_replicate_none :
    ∀ c : Nat, ((List.replicate c (none : Option α)).filterMap id) = []
  | 0 => rfl
  | c+1 => by
    rw [List.replicate_succ]
    rw [List.filterMap_cons_none rfl]
    exact filterMap_replicate_none c

theorem old_entries_fresh (c : Nat) : old_entries (fresh_table c) = [] := by
  simp [old_entries, fresh_table]

theorem keysList_fresh (c : Nat) : keysList (fresh_table c) = [] := by
  rw [keysList_eq_map_old, old_entries_fresh]
  rfl

theorem fresh_wf (hash : Nat → Nat) {c : Nat} (hc : c = 0 ∨ ∃ j, c = 2 ^ j) :
    WF hash (fresh_table c) := by
  refine ⟨by simp [fresh_table], by simp [fresh_table], hc, ?_, by simp [fresh_table], ?_, ?_, ?_, ?_, ?_⟩
  · rw [keysList_fresh]
    rfl
  · intro b e hb
    rw [show (fresh_table c).main_table = List.replicate c none from rfl,
      slotAt_replicate] at hb
    cases hb
  · intro i cc hi
    rw [show (fresh_table c).collision_table = List.replicate c none from rfl,
      slotAt_replicate] at hi
    cases hi
  · intro b e hb
    rw [show (fresh_table c).main_table = List.replicate c none from rfl,
      slotAt_replicate] at hb
    cases hb
  · intro b e hb
    rw [show (fresh_table c).main_table = List.replicate c none from rfl,
      slotAt_replicate] at hb
    cases hb
  · rw [keysList_fresh]
    exact List.nodup_nil

theorem grow_limit_ge_l : ∀ f l n, l ≤ grow_limit f l n
  | 0, l, n => Nat.le_refl l
  | f+1, l, n => by
    simp only [grow_limit]
    split
    · exact le_trans (by omega) (grow_limit_ge_l f (2 * l) n)
    · exact Nat.le_refl l

theorem grow_limit_ge_n : ∀ f l n, n ≤ l * 2 ^ f → n ≤ grow_limit f l n
  | 0, l, n, h => by
    simpa using h
  | f+1, l, n, h => by
    simp only [grow_limit]
    split
    · refine grow_limit_ge_n f (2 * l) n ?_
      have : 2 * l * 2 ^ f = l * 2 ^ (f + 1) := by ring
      omega
    · omega

theorem grow_limit_pow2 : ∀ f l n, (∃ j, l = 2 ^ j) → ∃ j, grow_limit f l n = 2 ^ j
  | 0, l, n, h => h
  | f+1, l, n, ⟨j, hj⟩ => by
    simp only [grow_limit]
    split
    · refine grow_limit_pow2 f (2 * l) n ⟨j + 1, ?_⟩
      rw [hj]
      ring
    · exact ⟨j, hj⟩

theorem pow2_and_self_sub_one {c j : Nat} (hc : c = 2 ^ j) : c &&& (c - 1) = 0 := by
  rw [hc, Nat.and_pow_two_sub_one_eq_mod, Nat.mod_self]

theorem slotAt_cons_zero (a : Option α) (l : List (Option α)) : slotAt (a :: l) 0 = a := by
  rw [slotAt_eq_get?]
  rfl

theorem slotAt_cons_succ (a : Option α) (l : List (Option α)) (i : Nat) :
    slotAt (a :: l) (i + 1) = slotAt l i := by
  rw [slotAt_eq_get?, slotAt_eq_get?]
  rfl

theorem all_some_filterMap :
    ∀ l : List (Option α), (∀ i, i < l.length → slotAt l i ≠ none) →
      (l.filterMap id).length = l.length
  | [], _ => rfl
  | a :: l, h => by
    cases ha : a with
    | none =>
      subst ha
      exact absurd (slotAt_cons_zero none l) (h 0 (by simp))
    | some x =>
      subst ha
      rw [List.filterMap_cons_some (show id (some x) = some x from rfl)]
      simp only [List.length_cons]
      rw [all_some_filterMap l ?_]
      intro i hi
      rw [← slotAt_cons_succ (some x) l i]
      exact h (i + 1) (by simpa using hi)

theorem exists_free_slot {hash : Nat → Nat} {t : Table} {b : Nat} {e : MainEntry}
    (hwf : WF hash t) (he : slotAt t.main_table b = some e) :
    ∃ i, i < t.bucket_count ∧ freeAt t i := by
  by_contra hcon
  push_neg at hcon
  have hall : ∀ i, i < t.collision_table.length → slotAt t.collision_table i ≠ none := by
    intro i hi
    have := hcon i (by rwa [hwf.collLen] at hi)
    simpa [freeAt] using this
  have hlen := all_some_filterMap t.collision_table hall
  have hmem : e ∈ mains t := mem_filterMap_id.2 ⟨b, he⟩
  have hmlen : 0 < (mains t).length := List.length_pos.2 (List.ne_nil_of_mem hmem)
  have hcnt := hwf.countEq
  have hle := hwf.countLe
  rw [keysList] at hcnt
  simp only [List.length_append, List.length_map] at hcnt
  rw [show colls t = t.collision_table.filterMap id from rfl] at hcnt
  rw [hlen, hwf.collLen] at hcnt
  omega


/-! ## Placing a new entry: primary slot and collision slot -/

theorem keys_perm_of_pairs {t2 t : Table} {k v : Nat}
    (h : (old_entries t2).Perm ((k, v) :: old_entries t)) :
    (keysList t2).Perm (k :: keysList t) := by
  rw [keysList_eq_map_old, keysList_eq_map_old]
  have := h.map Prod.fst
  simpa using this

theorem count_nodup_of_pairs {hash : Nat → Nat} {t2 t : Table} {k v : Nat}
    (hwf : WF hash t) (habs : k ∉ keysList t)
    (h : (old_entries t2).Perm ((k, v) :: old_entries t)) :
    (keysList t2).length = t.element_count + 1 ∧ (keysList t2).Nodup := by
  have hk := keys_perm_of_pairs h
  constructor
  · rw [hk.length_eq, List.length_cons, hwf.countEq]
  · rw [hk.nodup_iff, List.nodup_cons]
    exact ⟨habs, hwf.nodupKeys⟩

theorem insert_main_spec {hash : Nat → Nat} {t : Table} {k v : Nat}
    (hwf : WF hash t)
    (hnone : slotAt t.main_table (mask t.bucket_count (hash k)) = none)
    (habs : k ∉ keysList t)
    (hcnt : t.element_count + 1 ≤ t.bucket_count) :
    WF hash ⟨t.bucket_count, t.element_count + 1,
      t.main_table.set (mask t.bucket_count (hash k)) (some ⟨k, v, 0⟩),
      t.collision_table⟩ ∧
    (old_entries ⟨t.bucket_count, t.element_count + 1,
      t.main_table.set (mask t.bucket_count (hash k)) (some ⟨k, v, 0⟩),
      t.collision_table⟩).Perm ((k, v) :: old_entries t) := by
  have hcpos : 0 < t.bucket_count := by omega
  set b := mask t.bucket_count (hash k) with hb
  have hblt : b < t.bucket_count := mask_lt hcpos _
  have hbmlen : b < t.main_table.length := by rw [hwf.mainLen]; exact hblt
  set t2 : Table := ⟨t.bucket_count, t.element_count + 1,
    t.main_table.set b (some ⟨k, v, 0⟩), t.collision_table⟩ with ht2
  have hperm : (old_entries t2).Perm ((k, v) :: old_entries t) := by
    rw [old_entries_eq, old_entries_eq]
    have hm := (perm_insert hbmlen hnone ⟨k, v, 0⟩).map
      (fun x : MainEntry => (x.key, x.value))
    simp only [List.map_cons] at hm
    exact hm.append_right _
  obtain ⟨hlen2, hnd2⟩ := count_nodup_of_pairs hwf habs hperm
  refine ⟨⟨?_, ?_, hwf.pow2, ?_, ?_, ?_, ?_, ?_, ?_, hnd2⟩, hperm⟩
  · simp [ht2, hwf.mainLen]
  · simp [ht2, hwf.collLen]
  · exact hlen2.symm
  · exact hcnt
  · intro b' e' hb'
    by_cases hbb : b = b'
    · subst hbb
      rw [show t2.main_table = t.main_table.set b (some ⟨k, v, 0⟩) from rfl,
        slotAt_set_self _ hbmlen] at hb'
      cases hb'
      exact hb.symm
    · rw [show t2.main_table = t.main_table.set b (some ⟨k, v, 0⟩) from rfl,
        slotAt_set_ne _ hbb] at hb'
      exact hwf.home b' e' hb'
  · intro i c hslot
    rw [show t2.collision_table = t.collision_table from rfl] at hslot
    obtain ⟨hmask, e0, he0, o, ho, hio⟩ := hwf.ownerOf i c hslot
    refine ⟨hmask, e0, ?_, o, ho, hio⟩
    have hne : b ≠ c.main_index := by
      intro hbc
      rw [← hbc, hnone] at he0
      cases he0
    rw [show t2.main_table = t.main_table.set b (some ⟨k, v, 0⟩) from rfl,
      slotAt_set_ne _ hne]
    exact he0
  · intro b' e' hb' hch'
    by_cases hbb : b = b'
    · subst hbb
      rw [show t2.main_table = t.main_table.set b (some ⟨k, v, 0⟩) from rfl,
        slotAt_set_self _ hbmlen] at hb'
      cases hb'
      exact absurd rfl hch'
    · rw [show t2.main_table = t.main_table.set b (some ⟨k, v, 0⟩) from rfl,
        slotAt_set_ne _ hbb] at hb'
      exact hwf.tailOwn b' e' hb' hch'
  · intro b' e' hb'
    by_cases hbb : b = b'
    · subst hbb
      rw [show t2.main_table = t.main_table.set b (some ⟨k, v, 0⟩) from rfl,
        slotAt_set_self _ hbmlen] at hb'
      cases hb'
      simpa using hcpos
    · rw [show t2.main_table = t.main_table.set b (some ⟨k, v, 0⟩) from rfl,
        slotAt_set_ne _ hbb] at hb'
      exact hwf.chainLt b' e' hb'

theorem insert_coll_spec {hash : Nat → Nat} {t : Table} {k v nc idx : Nat} {e : MainEntry}
    (hwf : WF hash t)
    (he : slotAt t.main_table (mask t.bucket_count (hash k)) = some e)
    (hfree : slotAt t.collision_table idx = none)
    (hidx : idx = (mask t.bucket_count (hash k) + (nc - 1)) % t.bucket_count)
    (hnc : e.chain_length < nc)
    (hnc2 : 2 * nc < t.bucket_count)
    (habs : k ∉ keysList t)
    (hcnt : t.element_count + 1 ≤ t.bucket_count) :
    WF hash ⟨t.bucket_count, t.element_count + 1,
      t.main_table.set (mask t.bucket_count (hash k)) (some ⟨e.key, e.value, nc⟩),
      t.collision_table.set idx (some ⟨k, v, mask t.bucket_count (hash k)⟩)⟩ ∧
    (old_entries ⟨t.bucket_count, t.element_count + 1,
      t.main_table.set (mask t.bucket_count (hash k)) (some ⟨e.key, e.value, nc⟩),
      t.collision_table.set idx (some ⟨k, v, mask t.bucket_count (hash k)⟩)⟩).Perm
      ((k, v) :: old_entries t) := by
  have hcpos : 0 < t.bucket_count := by omega
  set b := mask t.bucket_count (hash k) with hb
  have hblt : b < t.bucket_count := mask_lt hcpos _
  have hbmlen : b < t.main_table.length := by rw [hwf.mainLen]; exact hblt
  have hidxlt : idx < t.bucket_count := by
    rw [hidx]
    exact Nat.mod_lt _ hcpos
  have hidxclen : idx < t.collision_table.length := by rw [hwf.collLen]; exact hidxlt
  have hncpos : 0 < nc := by omega
  set t2 : Table := ⟨t.bucket_count, t.element_count + 1,
    t.main_table.set b (some ⟨e.key, e.value, nc⟩),
    t.collision_table.set idx (some ⟨k, v, b⟩)⟩ with ht2
  have hperm : (old_entries t2).Perm ((k, v) :: old_entries t) := by
    rw [old_entries_eq, old_entries_eq]
    have hpm : (((t.main_table.set b (some ⟨e.key, e.value, nc⟩)).filterMap id).map
        (fun x : MainEntry => (x.key, x.value))).Perm
        ((mains t).map (fun x : MainEntry => (x.key, x.value))) := by
      have hm := (perm_replace he ⟨e.key, e.value, nc⟩).map
        (fun x : MainEntry => (x.key, x.value))
      simp only [List.map_cons] at hm
      exact hm.cons_inv.symm
    have hpc := (perm_insert hidxclen hfree ⟨k, v, b⟩).map
      (fun x : CollisionEntry => (x.key, x.value))
    simp only [List.map_cons] at hpc
    refine ((List.Perm.append_left _ hpc).trans ?_).trans
      (List.Perm.cons _ (hpm.append_right _))
    exact List.perm_middle
  obtain ⟨hlen2, hnd2⟩ := count_nodup_of_pairs hwf habs hperm
  refine ⟨⟨?_, ?_, hwf.pow2, ?_, ?_, ?_, ?_, ?_, ?_, hnd2⟩, hperm⟩
  · simp [ht2, hwf.mainLen]
  · simp [ht2, hwf.collLen]
  · exact hlen2.symm
  · exact hcnt
  · intro b' e' hb'
    by_cases hbb : b = b'
    · subst hbb
      rw [show t2.main_table = t.main_table.set b (some ⟨e.key, e.value, nc⟩) from rfl,
        slotAt_set_self _ hbmlen] at hb'
      cases hb'
      exact hwf.home b e he
    · rw [show t2.main_table = t.main_table.set b (some ⟨e.key, e.value, nc⟩) from rfl,
        slotAt_set_ne _ hbb] at hb'
      exact hwf.home b' e' hb'
  · intro i c hslot
    by_cases hii : idx = i
    · subst hii
      rw [show t2.collision_table = t.collision_table.set idx (some ⟨k, v, b⟩) from rfl,
        slotAt_set_self _ hidxclen] at hslot
      cases hslot
      refine ⟨hb.symm, ⟨e.key, e.value, nc⟩, ?_, nc - 1, show nc - 1 < nc by omega, hidx⟩
      rw [show t2.main_table = t.main_table.set b (some ⟨e.key, e.value, nc⟩) from rfl]
      exact slotAt_set_self _ hbmlen
    · rw [show t2.collision_table = t.collision_table.set idx (some ⟨k, v, b⟩) from rfl,
        slotAt_set_ne _ hii] at hslot
      obtain ⟨hmask, e0, he0, o, ho, hio⟩ := hwf.ownerOf i c hslot
      by_cases hbc : c.main_index = b
      · rw [hbc] at he0 hio
        rw [he] at he0
        cases he0
        refine ⟨hmask, ⟨e.key, e.value, nc⟩, ?_, o, show o < nc by omega, by rw [hbc]; exact hio⟩
        rw [hbc,
          show t2.main_table = t.main_table.set b (some ⟨e.key, e.value, nc⟩) from rfl]
        exact slotAt_set_self _ hbmlen
      · refine ⟨hmask, e0, ?_, o, ho, hio⟩
        rw [show t2.main_table = t.main_table.set b (some ⟨e.key, e.value, nc⟩) from rfl,
          slotAt_set_ne _ (fun h => hbc h.symm)]
        exact he0
  · intro b' e' hb' hch'
    by_cases hbb : b = b'
    · subst hbb
      rw [show t2.main_table = t.main_table.set b (some ⟨e.key, e.value, nc⟩) from rfl,
        slotAt_set_self _ hbmlen] at hb'
      cases hb'
      refine ⟨⟨k, v, b⟩, ?_, rfl⟩
      rw [show t2.collision_table = t.collision_table.set idx (some ⟨k, v, b⟩) from rfl]
      have : (b + (nc - 1)) % t.bucket_count = idx := hidx.symm
      simp only
      rw [this]
      exact slotAt_set_self _ hidxclen
    · rw [show t2.main_table = t.main_table.set b (some ⟨e.key, e.value, nc⟩) from rfl,
        slotAt_set_ne _ hbb] at hb'
      obtain ⟨ct, hct, hctown⟩ := hwf.tailOwn b' e' hb' hch'
      refine ⟨ct, ?_, hctown⟩
      rw [show t2.collision_table = t.collision_table.set idx (some ⟨k, v, b⟩) from rfl,
        slotAt_set_ne _ ?_]
      · exact hct
      · intro hieq
        rw [← hieq, hfree] at hct
        cases hct
  · intro b' e' hb'
    by_cases hbb : b = b'
    · subst hbb
      rw [show t2.main_table = t.main_table.set b (some ⟨e.key, e.value, nc⟩) from rfl,
        slotAt_set_self _ hbmlen] at hb'
      cases hb'
      exact hnc2
    · rw [show t2.main_table = t.main_table.set b (some ⟨e.key, e.value, nc⟩) from rfl,
        slotAt_set_ne _ hbb] at hb'
      exact hwf.chainLt b' e' hb'

end Turbokit
namespace Turbokit

/-! ## The master specification of `try_insert`, `reserve` and `resize_table` -/

theorem hasKV_iff_of_perm {t1 t2 : Table}
    (hp : (old_entries t1).Perm (old_entries t2)) (k v : Nat) :
    HasKV t1 k v ↔ HasKV t2 k v := by
  rw [← mem_old_entries, ← mem_old_entries]
  exact hp.mem_iff

theorem keys_perm_of_entries {t1 t2 : Table}
    (hp : (old_entries t1).Perm (old_entries t2)) :
    (keysList t1).Perm (keysList t2) := by
  rw [keysList_eq_map_old, keysList_eq_map_old]
  exact hp.map Prod.fst

/-- Specification of one `try_insert` call on a well-formed table. -/
def InsOk (hash : Nat → Nat) (t : Table) (k v : Nat) (r : Table × Iter × Bool) : Prop :=
  WF hash r.1 ∧ t.bucket_count ≤ r.1.bucket_count ∧
  ((∃ w, HasKV t k w) → r = (t, find hash t k, false)) ∧
  ((∀ w, ¬ HasKV t k w) →
    r.2.2 = true ∧ r.1.element_count = t.element_count + 1 ∧
    (old_entries r.1).Perm ((k, v) :: old_entries t))

theorem hmStep_master (hash : Nat → Nat) : ∀ fuel,
    (∀ t k v r, WF hash t → hmStep hash fuel (.ins t k v) = .ok r → InsOk hash t k v r) ∧
    (∀ t k v r, WF hash t → (∀ w, ¬ HasKV t k w) →
        t.element_count + 1 ≤ t.bucket_count →
        hmStep hash fuel (.core t k v) = .ok r →
        WF hash r.1 ∧ t.bucket_count ≤ r.1.bucket_count ∧ r.2.2 = true ∧
        r.1.element_count = t.element_count + 1 ∧
        (old_entries r.1).Perm ((k, v) :: old_entries t)) ∧
    (∀ t n r, WF hash t → hmStep hash fuel (.resv t n) = .ok r →
        WF hash r.1 ∧ t.bucket_count ≤ r.1.bucket_count ∧ n ≤ r.1.bucket_count ∧
        r.1.element_count = t.element_count ∧
        (old_entries r.1).Perm (old_entries t)) ∧
    (∀ t c r, WF hash t → (∃ j, c = 2 ^ j) → t.element_count ≤ c →
        hmStep hash fuel (.rsz t c) = .ok r →
        WF hash r.1 ∧ c ≤ r.1.bucket_count ∧
        r.1.element_count = t.element_count ∧
        (old_entries r.1).Perm (old_entries t)) ∧
    (∀ t l r, WF hash t → (l.map Prod.fst).Nodup →
        (∀ p, p ∈ l → p.1 ∉ keysList t) →
        hmStep hash fuel (.rhx t l) = .ok r →
        WF hash r.1 ∧ t.bucket_count ≤ r.1.bucket_count ∧
        r.1.element_count = t.element_count + l.length ∧
        (old_entries r.1).Perm (l ++ old_entries t)) := by
  intro fuel
  induction fuel with
  | zero =>
    refine ⟨?_, ?_, ?_, ?_, ?_⟩ <;> intro t
    · intro k v r _ h
      exact Res.noConfusion h
    · intro k v r _ _ _ h
      exact Res.noConfusion h
    · intro n r _ h
      exact Res.noConfusion h
    · intro c r _ _ _ h
      exact Res.noConfusion h
    · intro l r _ _ _ h
      exact Res.noConfusion h
  | succ fuel ih =>
    obtain ⟨ihIns, ihCore, ihResv, ihRsz, ihRhx⟩ := ih
    have hCore : ∀ t k v r, WF hash t → (∀ w, ¬ HasKV t k w) →
        t.element_count + 1 ≤ t.bucket_count →
        hmStep hash (fuel + 1) (.core t k v) = .ok r →
        WF hash r.1 ∧ t.bucket_count ≤ r.1.bucket_count ∧ r.2.2 = true ∧
        r.1.element_count = t.element_count + 1 ∧
        (old_entries r.1).Perm ((k, v) :: old_entries t) := by
      intro t k v r hwf habs hcnt hstep
      have hc : t.bucket_count ≠ 0 := by omega
      have hcpos : 0 < t.bucket_count := by omega
      obtain ⟨j, hj⟩ : ∃ j, t.bucket_count = 2 ^ j := hwf.pow2.resolve_left hc
      have hfind := find_not_found hwf habs hc
      cases hmain : slotAt t.main_table (mask t.bucket_count (hash k)) with
      | none =>
        simp only [hmain] at hfind
        simp only [hmStep, hfind, Option.getD_some] at hstep
        cases hstep
        obtain ⟨hwf2, hperm2⟩ :=
          insert_main_spec (v := v) hwf hmain (not_hasKV_iff.1 habs) hcnt
        exact ⟨hwf2, Nat.le_refl _, rfl, rfl, hperm2⟩
      | some e =>
        simp only [hmain] at hfind
        simp only [hmStep, hfind, Option.getD_some, hmain, Option.elim_some] at hstep
        by_cases hA : t.bucket_count < threshold1 ∧
            t.bucket_count < t.element_count * 4
        · rw [if_pos hA] at hstep
          cases hresv : hmStep hash fuel (.resv t (t.bucket_count + 1)) with
          | ok r1 =>
            rw [hresv] at hstep
            obtain ⟨hwf1, hcap1, hcapn1, hcnt1, hperm1⟩ :=
              ihResv t (t.bucket_count + 1) r1 hwf hresv
            have habs1 : ∀ w, ¬ HasKV r1.1 k w := by
              intro w hw
              exact habs w ((hasKV_iff_of_perm hperm1 k w).1 hw)
            obtain ⟨hwfr, hcapr, htrue, hcntr, hpermr⟩ :=
              ihCore r1.1 k v r hwf1 habs1 (by omega) hstep
            refine ⟨hwfr, by omega, htrue, ?_, ?_⟩
            · omega
            · refine hpermr.trans (List.Perm.cons _ ?_)
              exact hperm1
          | thrown => rw [hresv] at hstep; exact Res.noConfusion hstep
          | aborted => rw [hresv] at hstep; exact Res.noConfusion hstep
          | noFuel => rw [hresv] at hstep; exact Res.noConfusion hstep
        · rw [if_neg hA] at hstep
          have hstartlt : (mask t.bucket_count (hash k) + e.chain_length) %
              t.bucket_count < t.bucket_count := Nat.mod_lt _ hcpos
          obtain ⟨i0, hi0lt, hi0free⟩ := exists_free_slot hwf hmain
          obtain ⟨m, hmlt, hmfree, hmmin⟩ := exists_least_free hcpos hstartlt
            ⟨i0, hi0lt, hi0free⟩
          have hprobe := probe_free_hit hj (t.bucket_count + 1)
            ((mask t.bucket_count (hash k) + e.chain_length) % t.bucket_count)
            (e.chain_length + 1) m hstartlt (by omega) hmfree hmmin
          simp only [hprobe] at hstep
          set b := mask t.bucket_count (hash k) with hb
          set idx := (((b + e.chain_length) % t.bucket_count) + m) % t.bucket_count
            with hidxdef
          set nc := e.chain_length + 1 + m with hncdef
          have hidx2 : idx = (b + (nc - 1)) % t.bucket_count := by
            rw [hidxdef, Nat.mod_add_mod]
            congr 1
            omega
          by_cases hBC : (4 ≤ nc ∧ t.bucket_count < threshold2) ∨
              t.bucket_count / 2 ≤ nc
          · rw [if_pos hBC] at hstep
            cases hresv : hmStep hash fuel (.resv t (t.bucket_count + 1)) with
            | ok r1 =>
              rw [hresv] at hstep
              obtain ⟨hwf1, hcap1, hcapn1, hcnt1, hperm1⟩ :=
                ihResv t (t.bucket_count + 1) r1 hwf hresv
              have habs1 : ∀ w, ¬ HasKV r1.1 k w := by
                intro w hw
                exact habs w ((hasKV_iff_of_perm hperm1 k w).1 hw)
              obtain ⟨hwfr, hcapr, htrue, hcntr, hpermr⟩ :=
                ihCore r1.1 k v r hwf1 habs1 (by omega) hstep
              refine ⟨hwfr, by omega, htrue, ?_, ?_⟩
              · omega
              · exact hpermr.trans (List.Perm.cons _ hperm1)
            | thrown => rw [hresv] at hstep; exact Res.noConfusion hstep
            | aborted => rw [hresv] at hstep; exact Res.noConfusion hstep
            | noFuel => rw [hresv] at hstep; exact Res.noConfusion hstep
          · rw [if_neg hBC] at hstep
            cases hstep
            have hnc2 : 2 * nc < t.bucket_count := by
              rw [not_or] at hBC
              have := hBC.2
              omega
            obtain ⟨hwf2, hperm2⟩ := insert_coll_spec (v := v) hwf hmain hmfree
              hidx2 (by omega) hnc2 (not_hasKV_iff.1 habs) hcnt
            exact ⟨hwf2, Nat.le_refl _, rfl, rfl, hperm2⟩
    have hResv : ∀ t n r, WF hash t → hmStep hash (fuel + 1) (.resv t n) = .ok r →
        WF hash r.1 ∧ t.bucket_count ≤ r.1.bucket_count ∧ n ≤ r.1.bucket_count ∧
        r.1.element_count = t.element_count ∧
        (old_entries r.1).Perm (old_entries t) := by
      intro t n r hwf hstep
      by_cases hbig : size_max_half ≤ n
      · simp only [hmStep, if_pos hbig] at hstep
        exact Res.noConfusion hstep
      · simp only [hmStep, if_neg hbig] at hstep
        set l0 := if t.bucket_count = 0 then 1 else t.bucket_count with hl0
        have hl1 : 1 ≤ l0 := by
          rw [hl0]
          split <;> omega
        have hcapl0 : t.bucket_count ≤ l0 := by
          rw [hl0]
          split <;> omega
        have hl0pow : ∃ j, l0 = 2 ^ j := by
          rcases hwf.pow2 with h0 | ⟨j, hj⟩
          · rw [hl0, if_pos h0]
            exact ⟨0, rfl⟩
          · rw [hl0, if_neg (by rw [hj]; positivity)]
            exact ⟨j, hj⟩
        have hcpow : ∃ j, grow_limit n l0 n = 2 ^ j := grow_limit_pow2 n l0 n hl0pow
        have hgl : l0 ≤ grow_limit n l0 n := grow_limit_ge_l n l0 n
        have hgn : n ≤ grow_limit n l0 n := by
          refine grow_limit_ge_n n l0 n ?_
          have h1 : n < 2 ^ n := Nat.lt_two_pow n
          have h2 : 2 ^ n ≤ l0 * 2 ^ n := Nat.le_mul_of_pos_left _ (by omega)
          omega
        have hcc : t.element_count ≤ grow_limit n l0 n :=
          le_trans hwf.countLe (le_trans hcapl0 hgl)
        obtain ⟨hwfr, hcapr, hcntr, hpermr⟩ :=
          ihRsz t (grow_limit n l0 n) r hwf hcpow hcc hstep
        exact ⟨hwfr, le_trans hcapl0 (le_trans hgl hcapr),
          le_trans hgn hcapr, hcntr, hpermr⟩
    have hRsz : ∀ t c r, WF hash t → (∃ j, c = 2 ^ j) → t.element_count ≤ c →
        hmStep hash (fuel + 1) (.rsz t c) = .ok r →
        WF hash r.1 ∧ c ≤ r.1.bucket_count ∧
        r.1.element_count = t.element_count ∧
        (old_entries r.1).Perm (old_entries t) := by
      intro t c r hwf hpow hcc hstep
      obtain ⟨j, hj⟩ := hpow
      have hne : c &&& (c - 1) = 0 := pow2_and_self_sub_one hj
      simp only [hmStep] at hstep
      rw [if_neg (fun h => h hne)] at hstep
      obtain ⟨hwfr, hcapr, hcntr, hpermr⟩ :=
        ihRhx (fresh_table c) (old_entries t) r
          (fresh_wf hash (Or.inr ⟨j, hj⟩))
          (by rw [← keysList_eq_map_old]; exact hwf.nodupKeys)
          (by
            intro p _ hp
            rw [keysList_fresh] at hp
            cases hp)
          hstep
      have hcfresh : (fresh_table c).bucket_count = c := rfl
      have hlenold : (old_entries t).length = t.element_count := by
        have : (keysList t).length = (old_entries t).length := by
          rw [keysList_eq_map_old, List.length_map]
        rw [hwf.countEq, this]
      refine ⟨hwfr, by rw [← hcfresh]; exact hcapr, ?_, ?_⟩
      · rw [hcntr]
        simp [fresh_table, hlenold]
      · refine hpermr.trans ?_
        rw [old_entries_fresh, List.append_nil]
    refine ⟨?_, hCore, hResv, hRsz, ?_⟩
    · -- try_insert
      intro t k v r hwf hstep
      by_cases hcap0 : t.bucket_count = 0
      · simp only [hmStep, if_pos hcap0] at hstep
        cases hresv : hmStep hash fuel (.resv t 16) with
        | ok r16 =>
          rw [hresv] at hstep
          obtain ⟨hwf1, hcap1, hcapn1, hcnt1, hperm1⟩ :=
            ihResv t 16 r16 hwf hresv
          have hcnt0 : t.element_count = 0 := by
            have h1 := hwf.countLe
            rw [hcap0] at h1
            omega
          have hkt : keysList t = [] := by
            have h2 := hwf.countEq
            rw [hcnt0] at h2
            exact List.length_eq_zero.1 h2.symm
          have habs : ∀ w, ¬ HasKV t k w := by
            refine not_hasKV_iff.2 ?_
            rw [hkt]
            exact List.not_mem_nil k
          have habs1 : ∀ w, ¬ HasKV r16.1 k w := by
            intro w hw
            exact habs w ((hasKV_iff_of_perm hperm1 k w).1 hw)
          have hptr : (find hash r16.1 k).value_ptr = none := find_ptr_none hwf1 habs1
          have hnores : ¬ (r16.1.bucket_count < r16.1.element_count + 1) := by
            omega
          simp only [hptr, Option.isSome_none, Bool.false_eq_true, if_false,
            if_neg hnores] at hstep
          obtain ⟨hwfr, hcapr, htrue, hcntr, hpermr⟩ :=
            ihCore r16.1 k v r hwf1 habs1 (by omega) hstep
          refine ⟨hwfr, by omega, fun hex => absurd hex.choose_spec (habs _), ?_⟩
          intro _
          refine ⟨htrue, ?_, ?_⟩
          · omega
          · exact hpermr.trans (List.Perm.cons _ hperm1)
        | thrown => rw [hresv] at hstep; exact Res.noConfusion hstep
        | aborted => rw [hresv] at hstep; exact Res.noConfusion hstep
        | noFuel => rw [hresv] at hstep; exact Res.noConfusion hstep
      · simp only [hmStep, if_neg hcap0] at hstep
        by_cases hfound : (find hash t k).value_ptr.isSome = true
        · rw [if_pos hfound] at hstep
          cases hstep
          refine ⟨hwf, Nat.le_refl _, fun _ => rfl, fun habs => ?_⟩
          rw [find_ptr_none hwf habs] at hfound
          exact absurd hfound (by simp)
        · rw [if_neg hfound] at hstep
          have habs : ∀ w, ¬ HasKV t k w := by
            intro w hw
            exact hfound (find_ptr_some hwf hw)
          by_cases hmore : t.bucket_count < t.element_count + 1
          · rw [if_pos hmore] at hstep
            cases hresv : hmStep hash fuel (.resv t (t.element_count + 1)) with
            | ok r2 =>
              rw [hresv] at hstep
              obtain ⟨hwf2, hcap2, hcapn2, hcnt2, hperm2⟩ :=
                ihResv t (t.element_count + 1) r2 hwf hresv
              have habs2 : ∀ w, ¬ HasKV r2.1 k w := by
                intro w hw
                exact habs w ((hasKV_iff_of_perm hperm2 k w).1 hw)
              obtain ⟨hwfr, hcapr, htrue, hcntr, hpermr⟩ :=
                ihCore r2.1 k v r hwf2 habs2 (by omega) hstep
              refine ⟨hwfr, ?_, fun hex => absurd hex.choose_spec (habs _), ?_⟩
              · omega
              · intro _
                refine ⟨htrue, ?_, ?_⟩
                · omega
                · exact hpermr.trans (List.Perm.cons _ hperm2)
            | thrown => rw [hresv] at hstep; exact Res.noConfusion hstep
            | aborted => rw [hresv] at hstep; exact Res.noConfusion hstep
            | noFuel => rw [hresv] at hstep; exact Res.noConfusion hstep
          · rw [if_neg hmore] at hstep
            obtain ⟨hwfr, hcapr, htrue, hcntr, hpermr⟩ :=
              ihCore t k v r hwf habs (by omega) hstep
            exact ⟨hwfr, hcapr, fun hex => absurd hex.choose_spec (habs _),
              fun _ => ⟨htrue, hcntr, hpermr⟩⟩
    · -- rehash loop
      intro t l r hwf hnd hdisj hstep
      cases l with
      | nil =>
        simp only [hmStep] at hstep
        cases hstep
        exact ⟨hwf, Nat.le_refl _, rfl, List.Perm.refl _⟩
      | cons p rest =>
        obtain ⟨k, v⟩ := p
        simp only [hmStep] at hstep
        cases hins : hmStep hash fuel (.ins t k v) with
        | ok r1 =>
          rw [hins] at hstep
          have hkfresh : k ∉ keysList t := by
            have := hdisj (k, v) (List.mem_cons_self _ _)
            exact this
          have habs : ∀ w, ¬ HasKV t k w := not_hasKV_iff.2 hkfresh
          obtain ⟨hwf1, hcap1, _, hnew⟩ :=
            ihIns t k v r1 hwf hins
          obtain ⟨-, hcnt1, hperm1⟩ := hnew habs
          have hndrest : (rest.map Prod.fst).Nodup := by
            simp only [List.map_cons, List.nodup_cons] at hnd
            exact hnd.2
          have hknotin : k ∉ rest.map Prod.fst := by
            simp only [List.map_cons, List.nodup_cons] at hnd
            exact hnd.1
          have hkeys1 : (keysList r1.1).Perm (k :: keysList t) :=
            keys_perm_of_pairs hperm1
          have hdisj1 : ∀ p, p ∈ rest → p.1 ∉ keysList r1.1 := by
            intro p hp hmem
            have hmem2 : p.1 ∈ k :: keysList t := hkeys1.mem_iff.1 hmem
            rcases List.mem_cons.1 hmem2 with heq | hmem3
            · exact hknotin (heq ▸ List.mem_map.2 ⟨p, hp, rfl⟩)
            · exact hdisj p (List.mem_cons_of_mem _ hp) hmem3
          obtain ⟨hwfr, hcapr, hcntr, hpermr⟩ :=
            ihRhx r1.1 rest r hwf1 hndrest hdisj1 hstep
          refine ⟨hwfr, ?_, ?_, ?_⟩
          · omega
          · rw [hcntr]
            simp only [List.length_cons]
            omega
          · refine hpermr.trans ?_
            refine ((List.Perm.append_left rest hperm1).trans ?_)
            exact List.perm_middle
        | thrown => rw [hins] at hstep; exact Res.noConfusion hstep
        | aborted => rw [hins] at hstep; exact Res.noConfusion hstep
        | noFuel => rw [hins] at hstep; exact Res.noConfusion hstep

end Turbokit
namespace Turbokit

/-! ## Corollaries of the master theorem and erase-by-key -/

/-- `try_insert` on a well-formed table satisfies its specification `InsOk`. -/
theorem try_insert_ok {hash : Nat → Nat} {fuel : Nat} {t : Table} {k v : Nat}
    {r : Table × Iter × Bool} (hwf : WF hash t)
    (h : try_insert hash fuel t k v = .ok r) : InsOk hash t k v r :=
  (hmStep_master hash fuel).1 t k v r hwf h

/-- `find` on a present key returns a valid cursor whose slot stores exactly
the key and its value. -/
theorem find_valid {hash : Nat → Nat} {t : Table} {k v : Nat}
    (hwf : WF hash t) (hkv : HasKV t k v) :
    validIter t (find hash t k) ∧ iterKey t (find hash t k) = k ∧
    iterVal t (find hash t k) = v := by
  rcases find_found hwf hkv with ⟨b, e, hb, hk, hv, hfind⟩ |
    ⟨b, i, c, hi, hk, hv, hbm, hfind⟩
  · rw [hfind]
    refine ⟨⟨rfl, e, hb⟩, ?_, ?_⟩
    · simp [iterKey, hb, hk]
    · simp [iterVal, hb, hv]
  · rw [hfind]
    refine ⟨⟨rfl, c, hi, Or.inr (by rw [hbm])⟩, ?_, ?_⟩
    · simp [iterKey, hi, hk]
    · simp [iterVal, hi, hv]

/-- In a list of pairs with pairwise-distinct first components, a key
determines its value. -/
theorem nodup_fst_eq : ∀ {l : List (Nat × Nat)}, (l.map Prod.fst).Nodup →
    ∀ {k v w : Nat}, (k, v) ∈ l → (k, w) ∈ l → v = w := by
  intro l
  induction l with
  | nil => intro _ k v w h1 _; cases h1
  | cons a l ih =>
    intro hnd k v w h1 h2
    simp only [List.map_cons, List.nodup_cons] at hnd
    rcases List.mem_cons.1 h1 with h1a | h1'
    · rcases List.mem_cons.1 h2 with h2a | h2'
      · have := h1a.trans h2a.symm
        exact (Prod.ext_iff.1 this).2
      · exfalso
        apply hnd.1
        rw [← h1a]
        exact List.mem_map.2 ⟨(k, w), h2', rfl⟩
    · rcases List.mem_cons.1 h2 with h2a | h2'
      · exfalso
        apply hnd.1
        rw [← h2a]
        exact List.mem_map.2 ⟨(k, v), h1', rfl⟩
      · exact ih hnd.2 h1' h2'

/-- A well-formed table stores at most one value per key. -/
theorem hasKV_unique {hash : Nat → Nat} {t : Table} (hwf : WF hash t)
    {k v w : Nat} (h1 : HasKV t k v) (h2 : HasKV t k w) : v = w := by
  have hnd : ((old_entries t).map Prod.fst).Nodup := by
    rw [← keysList_eq_map_old]
    exact hwf.nodupKeys
  exact nodup_fst_eq hnd (mem_old_entries.2 h1) (mem_old_entries.2 h2)

/-- `remove(key)`: erasing an absent key is a no-op; erasing a present key
removes exactly that binding and keeps the capacity; the invariant is
preserved either way. -/
theorem remove_key_spec {hash : Nat → Nat} {t : Table} (k : Nat)
    (hwf : WF hash t) :
    WF hash (remove_key hash t k) ∧
    (remove_key hash t k).bucket_count = t.bucket_count ∧
    ((∀ w, ¬ HasKV t k w) → remove_key hash t k = t) ∧
    (∀ v, HasKV t k v →
      (remove_key hash t k).element_count = t.element_count - 1 ∧
      0 < t.element_count ∧
      (old_entries t).Perm ((k, v) :: old_entries (remove_key hash t k))) := by
  by_cases hkv : ∃ v, HasKV t k v
  · obtain ⟨v, hv⟩ := hkv
    obtain ⟨hvalid, hik, hiv⟩ := find_valid hwf hv
    have hsome : (find hash t k).value_ptr.isSome = true := find_ptr_some hwf hv
    have hrk : remove_key hash t k = (remove t (find hash t k)).1 := by
      rw [remove_key, if_pos hsome]
    obtain ⟨hwf2, hcap2, hcnt2, hpos, hperm⟩ := remove_spec hwf hvalid
    rw [hik, hiv] at hperm
    refine ⟨hrk ▸ hwf2, hrk ▸ hcap2, ?_, ?_⟩
    · intro habs
      exact absurd hv (habs v)
    · intro w hw
      have hweq : w = v := hasKV_unique hwf hw hv
      subst hweq
      rw [hrk]
      exact ⟨hcnt2, hpos, hperm⟩
  · have habs : (find hash t k).value_ptr = none :=
      find_ptr_none hwf (fun w hw => hkv ⟨w, hw⟩)
    have hrk : remove_key hash t k = t := by
      rw [remove_key, habs]
      rfl
    rw [hrk]
    exact ⟨hwf, rfl, fun _ => rfl, fun v hv => absurd ⟨v, hv⟩ hkv⟩

/-- A default-constructed map is well-formed. -/
theorem empty_wf (hash : Nat → Nat) : WF hash empty_table := by
  refine ⟨rfl, rfl, Or.inl rfl, rfl, Nat.le_refl 0, ?_, ?_, ?_, ?_, List.nodup_nil⟩
  · intro b e h
    simp [slotAt, empty_table] at h
  · intro i c h
    simp [slotAt, empty_table] at h
  · intro b e h
    simp [slotAt, empty_table] at h
  · intro b e h
    simp [slotAt, empty_table] at h

/-- Every sequence of public inserts and erasures preserves the invariant. -/
theorem runOps_wf {hash : Nat → Nat} {fuel : Nat} :
    ∀ {ops : List Op} {t t' : Table}, WF hash t →
      runOps hash fuel t ops = .ok t' → WF hash t' := by
  intro ops
  induction ops with
  | nil =>
    intro t t' hwf h
    simp only [runOps] at h
    cases h
    exact hwf
  | cons op rest ih =>
    intro t t' hwf h
    cases op with
    | insert k v =>
      simp only [runOps] at h
      cases hins : try_insert hash fuel t k v with
      | ok r =>
        simp only [hins] at h
        exact ih (try_insert_ok hwf hins).1 h
      | thrown => simp only [hins] at h; exact Res.noConfusion h
      | aborted => simp only [hins] at h; exact Res.noConfusion h
      | noFuel => simp only [hins] at h; exact Res.noConfusion h
    | erase k =>
      simp only [runOps] at h
      exact ih (remove_key_spec k hwf).1 h

/-- The insert operations for a list of key/value pairs. -/
def opsOf (ps : List (Nat × Nat)) : List Op := ps.map fun p => .insert p.1 p.2

/-- The erase operations for a list of keys. -/
def eraseOps (ks : List Nat) : List Op := ks.map .erase

/-- Running fresh-key insertions adds exactly the given pairs. -/
theorem runOps_inserts {hash : Nat → Nat} {fuel : Nat} :
    ∀ {ps : List (Nat × Nat)} {t t' : Table}, WF hash t →
      (ps.map Prod.fst).Nodup → (∀ p, p ∈ ps → p.1 ∉ keysList t) →
      runOps hash fuel t (opsOf ps) = .ok t' →
      WF hash t' ∧ t'.element_count = t.element_count + ps.length ∧
      (old_entries t').Perm (ps ++ old_entries t) := by
  intro ps
  induction ps with
  | nil =>
    intro t t' hwf _ _ h
    simp only [opsOf, List.map_nil, runOps] at h
    cases h
    exact ⟨hwf, rfl, List.Perm.refl _⟩
  | cons p rest ih =>
    intro t t' hwf hnd hfresh h
    simp only [opsOf, List.map_cons, runOps] at h
    cases hins : try_insert hash fuel t p.1 p.2 with
    | ok r =>
      simp only [hins] at h
      have habs : ∀ w, ¬ HasKV t p.1 w :=
        not_hasKV_iff.2 (hfresh p (List.mem_cons_self p rest))
      obtain ⟨hwf1, hcap1, _, hnew⟩ := try_insert_ok hwf hins
      obtain ⟨_, hcnt1, hperm1⟩ := hnew habs
      have hkeys1 : (keysList r.1).Perm (p.1 :: keysList t) :=
        keys_perm_of_pairs hperm1
      have hndrest : (rest.map Prod.fst).Nodup := by
        simp only [List.map_cons, List.nodup_cons] at hnd
        exact hnd.2
      have hknotin : p.1 ∉ rest.map Prod.fst := by
        simp only [List.map_cons, List.nodup_cons] at hnd
        exact hnd.1
      have hfresh1 : ∀ q, q ∈ rest → q.1 ∉ keysList r.1 := by
        intro q hq hmem
        have hmem2 : q.1 ∈ p.1 :: keysList t := hkeys1.mem_iff.1 hmem
        rcases List.mem_cons.1 hmem2 with heq | hmem3
        · exact hknotin (heq ▸ List.mem_map.2 ⟨q, hq, rfl⟩)
        · exact hfresh q (List.mem_cons_of_mem _ hq) hmem3
      obtain ⟨hwfr, hcntr, hpermr⟩ := ih hwf1 hndrest hfresh1 h
      refine ⟨hwfr, by rw [hcntr, hcnt1]; simp only [List.length_cons]; omega, ?_⟩
      refine hpermr.trans ?_
      refine (List.Perm.append_left rest hperm1).trans ?_
      exact List.perm_middle
    | thrown => simp only [hins] at h; exact Res.noConfusion h
    | aborted => simp only [hins] at h; exact Res.noConfusion h
    | noFuel => simp only [hins] at h; exact Res.noConfusion h

/-- Erasing all keys of a table, in any order, empties it. -/
theorem erase_all {hash : Nat → Nat} {fuel : Nat} :
    ∀ {ks : List Nat} {t t' : Table}, WF hash t → (keysList t).Perm ks →
      runOps hash fuel t (eraseOps ks) = .ok t' →
      WF hash t' ∧ t'.element_count = 0 ∧ keysList t' = [] := by
  intro ks
  induction ks with
  | nil =>
    intro t t' hwf hperm h
    simp only [eraseOps, List.map_nil, runOps] at h
    cases h
    have hnil : keysList t = [] := hperm.eq_nil
    exact ⟨hwf, by rw [hwf.countEq, hnil]; rfl, hnil⟩
  | cons k rest ih =>
    intro t t' hwf hperm h
    simp only [eraseOps, List.map_cons, runOps] at h
    have hk : k ∈ keysList t := hperm.mem_iff.2 (List.mem_cons_self k rest)
    obtain ⟨v, hv⟩ := hasKey_iff_mem_keysList.2 hk
    obtain ⟨hwf2, _, _, hpres⟩ := remove_key_spec k hwf
    obtain ⟨_, _, hperm2⟩ := hpres v hv
    have hkeys2 : (keysList t).Perm (k :: keysList (remove_key hash t k)) :=
      keys_perm_of_pairs hperm2
    have hrest : (keysList (remove_key hash t k)).Perm rest :=
      (hkeys2.symm.trans hperm).cons_inv
    exact ih hwf2 hrest h

/-- With every primary slot empty, the live-slot scan finds nothing. -/
theorem first_live_main_none {t : Table}
    (h : ∀ j, slotAt t.main_table j = none) :
    ∀ f i, first_live_main t f i = none := by
  intro f
  induction f with
  | zero => intro i; rfl
  | succ f ihf =>
    intro i
    simp only [first_live_main, h, ihf, ite_self]

/-- With every collision slot empty, the live-slot scan finds nothing. -/
theorem first_live_coll_none {t : Table}
    (h : ∀ j, slotAt t.collision_table j = none) :
    ∀ f i, first_live_coll t f i = none := by
  intro f
  induction f with
  | zero => intro i; rfl
  | succ f ihf =>
    intro i
    simp only [first_live_coll, h, ihf, ite_self]

/-- A table with no live keys has only empty slots. -/
theorem keysList_nil_slots {t : Table} (h : keysList t = []) :
    (∀ j, slotAt t.main_table j = none) ∧
    (∀ j, slotAt t.collision_table j = none) := by
  have hsplit : (mains t).map (·.key) = [] ∧ (colls t).map (·.key) = [] := by
    rw [keysList] at h
    exact List.append_eq_nil.1 h
  have hm : mains t = [] := List.map_eq_nil.1 hsplit.1
  have hc : colls t = [] := List.map_eq_nil.1 hsplit.2
  constructor
  · intro j
    cases hs : slotAt t.main_table j with
    | none => rfl
    | some e =>
      exfalso
      have : e ∈ mains t := mem_filterMap_id.2 ⟨j, hs⟩
      rw [hm] at this
      cases this
  · intro j
    cases hs : slotAt t.collision_table j with
    | none => rfl
    | some c =>
      exfalso
      have : c ∈ colls t := mem_filterMap_id.2 ⟨j, hs⟩
      rw [hc] at this
      cases this

/-- A table with no live keys iterates over nothing: `begin() = end()`. -/
theorem iterBegin_empty {t : Table} (h : keysList t = []) :
    iterBegin t = iterEnd := by
  by_cases hc : t.bucket_count = 0
  · rw [iterBegin, if_pos hc]
  · obtain ⟨hm, hcl⟩ := keysList_nil_slots h
    rw [iterBegin, if_neg hc, first_live_main_none hm, first_live_coll_none hcl]

end Turbokit
namespace Turbokit

/-! ## Claim theorems -/

/-- C1.  Round trip: inserting any finite sequence of pairwise-distinct keys
into an initially empty table (growth events included) makes `find` return
the inserted value for every key, and `size()` equal the number of distinct
keys inserted. -/
theorem C1_round_trip {hash : Nat → Nat} {fuel : Nat} {ps : List (Nat × Nat)}
    {t : Table} (hnd : (ps.map Prod.fst).Nodup)
    (hrun : runOps hash fuel empty_table (opsOf ps) = .ok t) :
    (∀ p, p ∈ ps → findVal hash t p.1 = some p.2) ∧
    t.element_count = ps.length := by
  have hfresh : ∀ p, p ∈ ps → p.1 ∉ keysList empty_table := by
    intro p _ hmem
    cases hmem
  obtain ⟨hwf, hcnt, hperm⟩ := runOps_inserts (empty_wf hash) hnd hfresh hrun
  have hperm2 : (old_entries t).Perm ps := by
    have hnil : old_entries empty_table = [] := rfl
    rw [hnil, List.append_nil] at hperm
    exact hperm
  refine ⟨?_, ?_⟩
  · intro p hp
    have hkv : HasKV t p.1 p.2 := by
      have : (p.1, p.2) ∈ old_entries t := hperm2.mem_iff.2 (by
        simpa using hp)
      exact mem_old_entries.1 this
    exact findVal_some hwf hkv
  · rw [hcnt]
    exact Nat.zero_add _

/-- The pairs inserted by the first witness run. -/
def w1ps : List (Nat × Nat) := (List.range 17).map fun i => (i, i + 100)

/-- The table produced by the first witness run (17 unique keys under the
identity hash, forcing one growth event from capacity 16 to 32). -/
def w1tab : Table :=
  match runOps id 100 empty_table (opsOf w1ps) with
  | .ok t => t
  | _ => empty_table

theorem C1_round_trip_witness :
    ((w1ps.map Prod.fst).Nodup ∧
      runOps id 100 empty_table (opsOf w1ps) = .ok w1tab ∧ 16 < w1tab.bucket_count) ∧
    ((∀ p, p ∈ w1ps → findVal id w1tab p.1 = some p.2) ∧
      w1tab.element_count = w1ps.length) :=
  ⟨⟨by decide, by rfl, by decide⟩, @C1_round_trip id 100 w1ps w1tab (by decide) (by rfl)⟩

/-- C2.  Invariant preservation: after any sequence of inserts and erasures
from an empty table, the capacity is zero or a power of two, and for every
occupied primary slot `b` with span `s`, the slots visited by probing forward
exactly `s` steps from `b` and owned by `b` are precisely all the overflow
entries owned by `b`. -/
theorem C2_invariants {hash : Nat → Nat} {fuel : Nat} {ops : List Op}
    {t : Table} (hrun : runOps hash fuel empty_table ops = .ok t) :
    (t.bucket_count = 0 ∨ ∃ j, t.bucket_count = 2 ^ j) ∧
    (∀ b e, slotAt t.main_table b = some e →
      ∀ i, ((∃ o, o < e.chain_length ∧ i = (b + o) % t.bucket_count) ∧
          ownAt t.collision_table b i) ↔ ownAt t.collision_table b i) := by
  have hwf := runOps_wf (empty_wf hash) hrun
  refine ⟨hwf.pow2, ?_⟩
  intro b e hb i
  constructor
  · exact And.right
  · intro hown
    refine ⟨?_, hown⟩
    obtain ⟨c, hi, hcb⟩ := hown
    obtain ⟨-, e', he', o, ho, hio⟩ := hwf.ownerOf i c hi
    rw [hcb] at he' hio
    rw [hb] at he'
    cases he'
    exact ⟨o, ho, hio⟩

/-- The mixed insert/erase sequence of the second witness run. -/
def w2ops : List Op :=
  [.insert 1 10, .insert 17 20, .insert 33 30, .erase 17, .insert 2 5, .erase 99]

/-- The table produced by the second witness run. -/
def w2tab : Table :=
  match runOps id 100 empty_table w2ops with
  | .ok t => t
  | _ => empty_table

theorem C2_invariants_witness :
    (runOps id 100 empty_table w2ops = .ok w2tab) ∧
    ((w2tab.bucket_count = 0 ∨ ∃ j, w2tab.bucket_count = 2 ^ j) ∧
      (∀ b e, slotAt w2tab.main_table b = some e →
        ∀ i, ((∃ o, o < e.chain_length ∧ i = (b + o) % w2tab.bucket_count) ∧
            ownAt w2tab.collision_table b i) ↔ ownAt w2tab.collision_table b i)) :=
  ⟨by rfl, @C2_invariants id 100 w2ops w2tab (by rfl)⟩

/-- C3.  Deletion completeness: on a table built by any insertion sequence,
erasing all of its keys in any order drives `size()` to 0, makes `find`
report not-found for every erased key, and makes iteration empty. -/
theorem C3_deletion_completeness {hash : Nat → Nat} {fuel : Nat}
    {ps : List (Nat × Nat)} {ks : List Nat} {t t2 : Table}
    (hins : runOps hash fuel empty_table (opsOf ps) = .ok t)
    (hks : (keysList t).Perm ks)
    (hrun : runOps hash fuel t (eraseOps ks) = .ok t2) :
    t2.element_count = 0 ∧ (∀ k, k ∈ ks → findVal hash t2 k = none) ∧
    iterBegin t2 = iterEnd := by
  have hwf := runOps_wf (empty_wf hash) hins
  obtain ⟨hwf2, hcnt, hnil⟩ := erase_all hwf hks hrun
  refine ⟨hcnt, ?_, iterBegin_empty hnil⟩
  intro k _
  refine findVal_none hwf2 ?_
  intro v hv
  have hmem : k ∈ keysList t2 := hasKey_iff_mem_keysList.1 ⟨v, hv⟩
  rw [hnil] at hmem
  cases hmem

/-- A degenerate hash mapping every key to bucket 0 (Scenario D). -/
def degHash : Nat → Nat := fun _ => 0

/-- The table produced by the third witness run: three distinct keys all
hashing to bucket 0, building an overflow chain of length 2. -/
def w3tab : Table :=
  match runOps degHash 100 empty_table (opsOf [(1, 11), (2, 12), (3, 13)]) with
  | .ok t => t
  | _ => empty_table

/-- The emptied table of the third witness run (keys erased out of insertion
order, exercising chain compaction). -/
def w3tab2 : Table :=
  match runOps degHash 100 w3tab (eraseOps [2, 1, 3]) with
  | .ok t => t
  | _ => empty_table

theorem C3_deletion_completeness_witness :
    (runOps degHash 100 empty_table (opsOf [(1, 11), (2, 12), (3, 13)]) = .ok w3tab ∧
      (keysList w3tab).Perm [2, 1, 3] ∧
      runOps degHash 100 w3tab (eraseOps [2, 1, 3]) = .ok w3tab2) ∧
    (w3tab2.element_count = 0 ∧
      (∀ k, k ∈ [2, 1, 3] → findVal degHash w3tab2 k = none) ∧
      iterBegin w3tab2 = iterEnd) :=
  ⟨⟨by rfl, by decide, by rfl⟩,
    @C3_deletion_completeness degHash 100 [(1, 11), (2, 12), (3, 13)] [2, 1, 3]
      w3tab w3tab2 (by rfl) (by decide) (by rfl)⟩

/-- C6.  No implicit overwrite: inserting a key that is already stored with
value `w` returns the cursor of the existing entry paired with `false` and
leaves the table — hence the stored value `w`, the capacity and the live
count — completely unchanged. -/
theorem C6_no_overwrite {hash : Nat → Nat} {fuel : Nat} {t : Table}
    {k w : Nat} (hwf : WF hash t) (hkv : HasKV t k w) (v : Nat) :
    try_insert hash (fuel + 1) t k v = .ok (t, find hash t k, false) ∧
    findVal hash t k = some w := by
  have hsome : (find hash t k).value_ptr.isSome = true := find_ptr_some hwf hkv
  have hc : t.bucket_count ≠ 0 := by
    intro h0
    have hend : find hash t k = iterEnd := by
      rw [find, if_pos h0]
    rw [hend] at hsome
    simp [iterEnd] at hsome
  constructor
  · simp only [try_insert, hmStep, if_neg hc]
    rw [if_pos hsome]
  · exact findVal_some hwf hkv

/-- The table of the sixth witness run: two entries under the identity hash. -/
def w6tab : Table :=
  match runOps id 100 empty_table (opsOf [(5, 50), (6, 60)]) with
  | .ok t => t
  | _ => empty_table

theorem C6_no_overwrite_witness :
    (WF id w6tab ∧ HasKV w6tab 5 50) ∧
    (try_insert id 100 w6tab 5 999 = .ok (w6tab, find id w6tab 5, false) ∧
      findVal id w6tab 5 = some 50) :=
  ⟨⟨@runOps_wf id 100 (opsOf [(5, 50), (6, 60)]) empty_table w6tab
      (empty_wf id) (by rfl),
    Or.inl ⟨5, ⟨5, 50, 0⟩, by rfl, rfl, rfl⟩⟩,
    @C6_no_overwrite id 99 w6tab 5 50
      (@runOps_wf id 100 (opsOf [(5, 50), (6, 60)]) empty_table w6tab
        (empty_wf id) (by rfl))
      (Or.inl ⟨5, ⟨5, 50, 0⟩, by rfl, rfl, rfl⟩) 999⟩

/-- The table of the seventh witness run: two entries under the identity
hash. -/
def w7tab : Table :=
  match runOps id 100 empty_table (opsOf [(1, 10), (2, 20)]) with
  | .ok t => t
  | _ => empty_table

/-- C7.  Erase-by-key behaviour at the failing input: the C++ member
`remove(KeyT&&)` is declared `void` — it returns no value at all, so the
model's `remove_key` yields only the updated table.  Behaviourally a present
key is removed and an absent key leaves the table bit-for-bit unchanged, but
the documented `size_t` result (0 or 1) does not exist in the code. -/
theorem C7_erase_key_void :
    (remove_key id w7tab 2).element_count = 1 ∧
    findVal id (remove_key id w7tab 2) 2 = none ∧
    remove_key id w7tab 99 = w7tab :=
  ⟨by rfl, by rfl, by rfl⟩

/-- C8 (amended).  Contract violations: a non-power-of-two capacity passed to
`resize_table` aborts the process, but a capacity request at or above
`SIZE_MAX / 2` makes `reserve` throw `std::range_error` — a recoverable
exception, not process termination. -/
theorem C8_contract_violations {hash : Nat → Nat} {fuel : Nat} {t : Table}
    {c n : Nat} (hc : c &&& (c - 1) ≠ 0) (hn : size_max_half ≤ n) :
    resize_table hash (fuel + 1) t c = .aborted ∧
    reserve hash (fuel + 1) t n = .thrown := by
  constructor
  · rw [resize_table]
    simp only [hmStep]
    rw [if_pos hc]
    rfl
  · rw [reserve]
    simp only [hmStep]
    rw [if_pos hn]
    rfl

theorem C8_contract_violations_witness :
    ((3 &&& (3 - 1) ≠ 0) ∧ size_max_half ≤ 2 ^ 63) ∧
    (resize_table id 1 empty_table 3 = .aborted ∧
      reserve id 1 empty_table (2 ^ 63) = .thrown) :=
  ⟨⟨by decide, by decide⟩, @C8_contract_violations id 0 empty_table 3 (2 ^ 63) (by decide) (by decide)⟩

/-- C8 counterexample: a capacity request of `2^63` makes `reserve` throw —
it does not abort, so "exceeding the representable range is fatal and
terminates the process" does not hold for `reserve`. -/
theorem C8_counterexample :
    reserve id 1 empty_table (2 ^ 63) = .thrown ∧
    reserve id 1 empty_table (2 ^ 63) ≠ .aborted := by
  have h : reserve id 1 empty_table (2 ^ 63) = .thrown := by rfl
  refine ⟨h, ?_⟩
  rw [h]
  intro habs
  exact Res.noConfusion habs

/-- The source table of the ninth witness run: two entries under the identity
hash. -/
def w9src : Table :=
  match runOps id 100 empty_table (opsOf [(1, 10), (2, 20)]) with
  | .ok t => t
  | _ => empty_table

/-- The table built by constructing from `w9src`: C++ overload resolution
selects the copy constructor (no move constructor is declared). -/
def w9dst : Table :=
  match copy_construct id 100 w9src with
  | .ok t => t
  | _ => empty_table

/-- C9.  Move construction at the failing input: the class declares no move
constructor, so `HashMap(std::move(original))` invokes the copy constructor,
which re-inserts every entry one by one (not an O(1) transfer) and leaves the
source with its 2 entries — the documentation and the `MoveConstruction`
test expect `original.size() == 0` afterwards. -/
theorem C9_no_move_constructor :
    copy_construct id 100 w9src = .ok w9dst ∧
    w9dst.element_count = 2 ∧ old_entries w9dst = old_entries w9src ∧
    w9src.element_count = 2 :=
  ⟨by rfl, by rfl, by rfl, by rfl⟩

/-- C10.  True-tail invariant: in every state reachable by public inserts and
erasures from an empty table, every occupied primary slot `b` with span
`s > 0` has the overflow slot at `(b + s - 1) mod capacity` owned by `b`. -/
theorem C10_tail_invariant {hash : Nat → Nat} {fuel : Nat} {ops : List Op}
    {t : Table} (hrun : runOps hash fuel empty_table ops = .ok t) :
    ∀ b e, slotAt t.main_table b = some e → e.chain_length ≠ 0 →
      ∃ c, slotAt t.collision_table ((b + (e.chain_length - 1)) % t.bucket_count)
          = some c ∧ c.main_index = b :=
  (runOps_wf (empty_wf hash) hrun).tailOwn

/-- The operation sequence of the tenth witness run: two keys in bucket 0 and
one erase, leaving a non-empty chain. -/
def w10ops : List Op := [.insert 1 11, .insert 2 12, .insert 3 13, .erase 2]

/-- The table produced by the tenth witness run. -/
def w10tab : Table :=
  match runOps degHash 100 empty_table w10ops with
  | .ok t => t
  | _ => empty_table

theorem C10_tail_invariant_witness :
    (runOps degHash 100 empty_table w10ops = .ok w10tab ∧
      (slotAt w10tab.main_table 0).map (fun e => e.chain_length) = some 1) ∧
    (∀ b e, slotAt w10tab.main_table b = some e → e.chain_length ≠ 0 →
      ∃ c, slotAt w10tab.collision_table
          ((b + (e.chain_length - 1)) % w10tab.bucket_count) = some c ∧
        c.main_index = b) :=
  ⟨⟨by rfl, by rfl⟩, @C10_tail_invariant degHash 100 w10ops w10tab (by rfl)⟩

end Turbokit
namespace Turbokit

/-! ## C4: the growth decision of `try_insert` -/

/-- The growth trigger exactly as the specification words it, for comparison
with the code: (a) first collision of the bucket (`old span == 0`) with the
capacity below both the first ceiling and 4× the live count, or (b)
`new_span ≥ 4` below the higher ceiling, or (c) `new_span ≥ capacity / 2`. -/
def claimTrigger (cap count oldSpan newSpan : Nat) : Prop :=
  (oldSpan = 0 ∧ cap < threshold1 ∧ cap < count * 4) ∨
  (4 ≤ newSpan ∧ cap < threshold2) ∨
  (cap / 2 ≤ newSpan)

/-- C4 (amended).  Growth decision when an insert needs an overflow slot for
bucket `b`: the capacity grows exactly when (a) the capacity is below the
first ceiling and below 4× the live count — for any collision, not only the
bucket's first one — or, failing that, when the probed `new_span` satisfies
(b) `new_span ≥ 4` below the higher ceiling or (c) `new_span ≥ capacity / 2`;
otherwise the capacity is unchanged.  `new_span` is counted by probing
forward from `b + old span`, counting every occupied slot (foreign ones
included) until an empty overflow slot is found. -/
theorem C4_growth_policy {hash : Nat → Nat} {fuel : Nat} {t : Table}
    {k v : Nat} {e : MainEntry} {r : Table × Iter × Bool}
    (hwf : WF hash t) (habs : ∀ w, ¬ HasKV t k w)
    (hcnt : t.element_count + 1 ≤ t.bucket_count)
    (hmain : slotAt t.main_table (mask t.bucket_count (hash k)) = some e)
    (hstep : hmStep hash (fuel + 1) (.core t k v) = .ok r) :
    ((t.bucket_count < threshold1 ∧ t.bucket_count < t.element_count * 4) →
      t.bucket_count < r.1.bucket_count) ∧
    (¬ (t.bucket_count < threshold1 ∧ t.bucket_count < t.element_count * 4) →
      ∀ idx nc,
        probe_free t (t.bucket_count + 1)
          ((mask t.bucket_count (hash k) + e.chain_length) % t.bucket_count)
          (e.chain_length + 1) = some (idx, nc) →
        (((4 ≤ nc ∧ t.bucket_count < threshold2) ∨ t.bucket_count / 2 ≤ nc) →
          t.bucket_count < r.1.bucket_count) ∧
        (¬ ((4 ≤ nc ∧ t.bucket_count < threshold2) ∨ t.bucket_count / 2 ≤ nc) →
          r.1.bucket_count = t.bucket_count)) := by
  have hc : t.bucket_count ≠ 0 := by omega
  have hcpos : 0 < t.bucket_count := by omega
  obtain ⟨j, hj⟩ : ∃ j, t.bucket_count = 2 ^ j := hwf.pow2.resolve_left hc
  obtain ⟨mIns, mCore, mResv, mRsz, mRhx⟩ := hmStep_master hash fuel
  have hfind := find_not_found hwf habs hc
  simp only [hmain] at hfind
  simp only [hmStep, hfind, Option.getD_some, hmain, Option.elim_some] at hstep
  constructor
  · intro hA
    rw [if_pos hA] at hstep
    cases hresv : hmStep hash fuel (.resv t (t.bucket_count + 1)) with
    | ok r1 =>
      rw [hresv] at hstep
      obtain ⟨hwf1, hcap1, hcapn1, hcnt1, hperm1⟩ :=
        mResv t (t.bucket_count + 1) r1 hwf hresv
      have habs1 : ∀ w, ¬ HasKV r1.1 k w := by
        intro w hw
        exact habs w ((hasKV_iff_of_perm hperm1 k w).1 hw)
      obtain ⟨hwfr, hcapr, htrue, hcntr, hpermr⟩ :=
        mCore r1.1 k v r hwf1 habs1 (by omega) hstep
      omega
    | thrown => rw [hresv] at hstep; exact Res.noConfusion hstep
    | aborted => rw [hresv] at hstep; exact Res.noConfusion hstep
    | noFuel => rw [hresv] at hstep; exact Res.noConfusion hstep
  · intro hA idx nc hpr
    rw [if_neg hA] at hstep
    have hstartlt : (mask t.bucket_count (hash k) + e.chain_length) %
        t.bucket_count < t.bucket_count := Nat.mod_lt _ hcpos
    obtain ⟨i0, hi0lt, hi0free⟩ := exists_free_slot hwf hmain
    obtain ⟨m, hmlt, hmfree, hmmin⟩ := exists_least_free hcpos hstartlt
      ⟨i0, hi0lt, hi0free⟩
    have hprobe := probe_free_hit hj (t.bucket_count + 1)
      ((mask t.bucket_count (hash k) + e.chain_length) % t.bucket_count)
      (e.chain_length + 1) m hstartlt (by omega) hmfree hmmin
    have heq := Option.some.inj (hprobe.symm.trans hpr)
    injection heq with h1 h2
    subst h1
    subst h2
    simp only [hprobe] at hstep
    by_cases hBC : (4 ≤ e.chain_length + 1 + m ∧ t.bucket_count < threshold2) ∨
        t.bucket_count / 2 ≤ e.chain_length + 1 + m
    · rw [if_pos hBC] at hstep
      refine ⟨fun _ => ?_, fun hn => absurd hBC hn⟩
      cases hresv : hmStep hash fuel (.resv t (t.bucket_count + 1)) with
      | ok r1 =>
        rw [hresv] at hstep
        obtain ⟨hwf1, hcap1, hcapn1, hcnt1, hperm1⟩ :=
          mResv t (t.bucket_count + 1) r1 hwf hresv
        have habs1 : ∀ w, ¬ HasKV r1.1 k w := by
          intro w hw
          exact habs w ((hasKV_iff_of_perm hperm1 k w).1 hw)
        obtain ⟨hwfr, hcapr, htrue, hcntr, hpermr⟩ :=
          mCore r1.1 k v r hwf1 habs1 (by omega) hstep
        omega
      | thrown => rw [hresv] at hstep; exact Res.noConfusion hstep
      | aborted => rw [hresv] at hstep; exact Res.noConfusion hstep
      | noFuel => rw [hresv] at hstep; exact Res.noConfusion hstep
    · rw [if_neg hBC] at hstep
      cases hstep
      exact ⟨fun hb => absurd hb hBC, fun _ => rfl⟩

/-- The table of the fourth witness run: capacity 16, 6 entries, bucket 0
with span 1 (keys 0 and 16 collide under the identity hash). -/
def w4tab : Table :=
  match runOps id 100 empty_table
      (opsOf [(0, 0), (1, 1), (2, 2), (16, 160), (3, 3), (4, 4)]) with
  | .ok t => t
  | _ => empty_table

/-- The table after additionally inserting key 32 into `w4tab`. -/
def w4tab2 : Table :=
  match try_insert id 100 w4tab 32 320 with
  | .ok r => r.1
  | _ => empty_table

/-- The full result of the `.core` step of inserting key 32 into `w4tab`. -/
def w4core : Table × Iter × Bool :=
  match hmStep id 100 (.core w4tab 32 320) with
  | .ok r => r
  | _ => (empty_table, iterEnd, false)

/-- C4 counterexample: at `w4tab` (capacity 16, 6 live entries, bucket 0
already owning one overflow entry) inserting key 32 doubles the capacity to
32, although every disjunct of the specification's trigger is false there:
the old span is 1 — not 0, so (a) fails — and the probed new span would be 2,
so (b) and (c) fail. -/
theorem C4_counterexample :
    w4tab.bucket_count = 16 ∧ w4tab.element_count = 6 ∧
    (slotAt w4tab.main_table 0).map (fun e => e.chain_length) = some 1 ∧
    probe_free w4tab (16 + 1) ((0 + 1) % 16) (1 + 1) = some (1, 2) ∧
    ¬ claimTrigger 16 6 1 2 ∧
    try_insert id 100 w4tab 32 320 = .ok (w4tab2, ⟨some 0, some 0, some (true, 0)⟩, true) ∧
    w4tab2.bucket_count = 32 := by
  refine ⟨rfl, rfl, rfl, rfl, ?_, by rfl, rfl⟩
  unfold claimTrigger threshold1 threshold2 entry_size
  decide

theorem C4_growth_policy_witness :
    ((∀ w, ¬ HasKV w4tab 32 w) ∧
      w4tab.element_count + 1 ≤ w4tab.bucket_count ∧
      slotAt w4tab.main_table (mask w4tab.bucket_count (id 32)) =
        some ⟨0, 0, 1⟩ ∧
      hmStep id 100 (.core w4tab 32 320) = .ok w4core) ∧
    (((w4tab.bucket_count < threshold1 ∧
        w4tab.bucket_count < w4tab.element_count * 4) →
      w4tab.bucket_count < w4core.1.bucket_count) ∧
    (¬ (w4tab.bucket_count < threshold1 ∧
        w4tab.bucket_count < w4tab.element_count * 4) →
      ∀ idx nc,
        probe_free w4tab (w4tab.bucket_count + 1)
          ((mask w4tab.bucket_count (id 32) +
              (⟨0, 0, 1⟩ : MainEntry).chain_length) % w4tab.bucket_count)
          ((⟨0, 0, 1⟩ : MainEntry).chain_length + 1) = some (idx, nc) →
        (((4 ≤ nc ∧ w4tab.bucket_count < threshold2) ∨
            w4tab.bucket_count / 2 ≤ nc) →
          w4tab.bucket_count < w4core.1.bucket_count) ∧
        (¬ ((4 ≤ nc ∧ w4tab.bucket_count < threshold2) ∨
            w4tab.bucket_count / 2 ≤ nc) →
          w4core.1.bucket_count = w4tab.bucket_count))) :=
  ⟨⟨not_hasKV_iff.2 (by decide), by decide, by rfl, by rfl⟩,
    @C4_growth_policy id 99 w4tab 32 320 ⟨0, 0, 1⟩ w4core
      (@runOps_wf id 100
        (opsOf [(0, 0), (1, 1), (2, 2), (16, 160), (3, 3), (4, 4)])
        empty_table w4tab (empty_wf id) (by rfl))
      (not_hasKV_iff.2 (by decide)) (by decide) (by rfl) (by rfl)⟩

end Turbokit
namespace Turbokit

/-! ## C5: the cursor returned by `remove(iterator)` -/

/-- The collision-slot scan finds nothing at or past the capacity. -/
theorem flc_out {t : Table} {i : Nat} (hi : t.bucket_count ≤ i) :
    ∀ g, first_live_coll t g i = none := by
  intro g
  cases g with
  | zero => rfl
  | succ g =>
    simp only [first_live_coll]
    rw [if_neg (by omega)]

/-- The primary-slot scan finds nothing at or past the capacity. -/
theorem flm_out {t : Table} {i : Nat} (hi : t.bucket_count ≤ i) :
    ∀ g, first_live_main t g i = none := by
  intro g
  cases g with
  | zero => rfl
  | succ g =>
    simp only [first_live_main]
    rw [if_neg (by omega)]

/-- The collision-slot scan is fuel-insensitive once the fuel covers the
remaining slots. -/
theorem flc_fuel {t : Table} : ∀ f g i, t.bucket_count ≤ i + f →
    t.bucket_count ≤ i + g →
    first_live_coll t f i = first_live_coll t g i := by
  intro f
  induction f with
  | zero =>
    intro g i hf _
    rw [flc_out (show t.bucket_count ≤ i by omega),
      flc_out (show t.bucket_count ≤ i by omega)]
  | succ f ihf =>
    intro g i hf hg
    cases g with
    | zero =>
      rw [flc_out (show t.bucket_count ≤ i by omega),
        flc_out (show t.bucket_count ≤ i by omega)]
    | succ g =>
      simp only [first_live_coll]
      by_cases hlt : i < t.bucket_count
      · rw [if_pos hlt, if_pos hlt]
        cases hs : slotAt t.collision_table i with
        | some c => rfl
        | none => exact ihf g (i + 1) (by omega) (by omega)
      · rw [if_neg hlt, if_neg hlt]

/-- The primary-slot scan is fuel-insensitive once the fuel covers the
remaining slots. -/
theorem flm_fuel {t : Table} : ∀ f g i, t.bucket_count ≤ i + f →
    t.bucket_count ≤ i + g →
    first_live_main t f i = first_live_main t g i := by
  intro f
  induction f with
  | zero =>
    intro g i hf _
    rw [flm_out (show t.bucket_count ≤ i by omega),
      flm_out (show t.bucket_count ≤ i by omega)]
  | succ f ihf =>
    intro g i hf hg
    cases g with
    | zero =>
      rw [flm_out (show t.bucket_count ≤ i by omega),
        flm_out (show t.bucket_count ≤ i by omega)]
    | succ g =>
      simp only [first_live_main]
      by_cases hlt : i < t.bucket_count
      · rw [if_pos hlt, if_pos hlt]
        cases hs : slotAt t.main_table i with
        | some c => rfl
        | none => exact ihf g (i + 1) (by omega) (by omega)
      · rw [if_neg hlt, if_neg hlt]

/-- Tables agreeing on capacity and on the collision slots from `j` on have
the same collision-slot scan from `j` on. -/
theorem flc_congr {t t2 : Table} (hcap : t2.bucket_count = t.bucket_count)
    {j : Nat}
    (hsl : ∀ x, j ≤ x →
      slotAt t2.collision_table x = slotAt t.collision_table x) :
    ∀ f i, j ≤ i → first_live_coll t2 f i = first_live_coll t f i := by
  intro f
  induction f with
  | zero => intro i _; rfl
  | succ f ihf =>
    intro i hi
    simp only [first_live_coll, hcap, hsl i hi]
    by_cases hlt : i < t.bucket_count
    · rw [if_pos hlt, if_pos hlt]
      cases hs : slotAt t.collision_table i with
      | some c => rfl
      | none => exact ihf (i + 1) (by omega)
    · rw [if_neg hlt, if_neg hlt]

/-- Tables agreeing on capacity and on the primary slots from `j` on have the
same primary-slot scan from `j` on. -/
theorem flm_congr {t t2 : Table} (hcap : t2.bucket_count = t.bucket_count)
    {j : Nat}
    (hsl : ∀ x, j ≤ x → slotAt t2.main_table x = slotAt t.main_table x) :
    ∀ f i, j ≤ i → first_live_main t2 f i = first_live_main t f i := by
  intro f
  induction f with
  | zero => intro i _; rfl
  | succ f ihf =>
    intro i hi
    simp only [first_live_main, hcap, hsl i hi]
    by_cases hlt : i < t.bucket_count
    · rw [if_pos hlt, if_pos hlt]
      cases hs : slotAt t.main_table i with
      | some c => rfl
      | none => exact ihf (i + 1) (by omega)
    · rw [if_neg hlt, if_neg hlt]

/-- One unfolding of the collision-slot scan at full fuel. -/
theorem first_live_coll_eval {t : Table} {i : Nat} (hi : i < t.bucket_count) :
    first_live_coll t t.bucket_count i =
      match slotAt t.collision_table i with
      | some _ => some i
      | none => first_live_coll t (t.bucket_count - 1) (i + 1) := by
  obtain ⟨g, hg⟩ : ∃ g, t.bucket_count = g + 1 := ⟨t.bucket_count - 1, by omega⟩
  rw [hg]
  simp only [first_live_coll, Nat.add_sub_cancel]
  rw [if_pos hi]

/-- One unfolding of the primary-slot scan at full fuel. -/
theorem first_live_main_eval {t : Table} {i : Nat} (hi : i < t.bucket_count) :
    first_live_main t t.bucket_count i =
      match slotAt t.main_table i with
      | some _ => some i
      | none => first_live_main t (t.bucket_count - 1) (i + 1) := by
  obtain ⟨g, hg⟩ : ∃ g, t.bucket_count = g + 1 := ⟨t.bucket_count - 1, by omega⟩
  rw [hg]
  simp only [first_live_main, Nat.add_sub_cancel]
  rw [if_pos hi]

/-- The pointer produced by the collision phase of `operator++` is the first
live collision slot strictly after the current one. -/
theorem coll_advance_ptr {t : Table} (bi : Option Nat) :
    ∀ f ci, ci < t.bucket_count →
      (coll_advance t bi f ci).value_ptr =
        (first_live_coll t f (ci + 1)).map (fun x => (true, x)) := by
  intro f
  induction f with
  | zero => intro ci _; rfl
  | succ f ihf =>
    intro ci hci
    have hunf : coll_advance t bi (f + 1) ci =
        if ci = t.bucket_count - 1 then ⟨bi, some ci, none⟩
        else
          match slotAt t.collision_table (ci + 1) with
          | some _ => ⟨bi, some (ci + 1), some (true, ci + 1)⟩
          | none => coll_advance t bi f (ci + 1) := rfl
    rw [hunf]
    by_cases hlast : ci = t.bucket_count - 1
    · rw [if_pos hlast, flc_out (show t.bucket_count ≤ ci + 1 by omega) (f + 1)]
      rfl
    · rw [if_neg hlast]
      simp only [first_live_coll]
      rw [if_pos (show ci + 1 < t.bucket_count by omega)]
      cases hs : slotAt t.collision_table (ci + 1) with
      | some c => rfl
      | none => exact ihf (ci + 1) (by omega)

/-- The pointer produced by the main phase of `operator++` is the first live
primary slot strictly after the current one, falling back to the first live
collision slot. -/
theorem main_advance_ptr {t : Table} :
    ∀ f b, b < t.bucket_count → t.bucket_count ≤ b + f →
      (main_advance t f b).value_ptr =
        match first_live_main t f (b + 1) with
        | some i => some (false, i)
        | none => (first_live_coll t t.bucket_count 0).map (fun x => (true, x)) := by
  intro f
  induction f with
  | zero => intro b hb hf; omega
  | succ f ihf =>
    intro b hb hf
    have hunf : main_advance t (f + 1) b =
        if b = t.bucket_count - 1 then
          match slotAt t.collision_table 0 with
          | some _ => ⟨none, some 0, some (true, 0)⟩
          | none => coll_advance t none t.bucket_count 0
        else
          match slotAt t.main_table (b + 1) with
          | some _ => ⟨some (b + 1), none, some (false, b + 1)⟩
          | none => main_advance t f (b + 1) := rfl
    rw [hunf]
    by_cases hlast : b = t.bucket_count - 1
    · rw [if_pos hlast, flm_out (show t.bucket_count ≤ b + 1 by omega) (f + 1)]
      rw [first_live_coll_eval (show 0 < t.bucket_count by omega)]
      cases hs : slotAt t.collision_table 0 with
      | some c => rfl
      | none =>
        rw [coll_advance_ptr none t.bucket_count 0 (by omega)]
        rw [flc_fuel t.bucket_count (t.bucket_count - 1) (0 + 1) (by omega) (by omega)]
    · rw [if_neg hlast]
      simp only [first_live_main]
      rw [if_pos (show b + 1 < t.bucket_count by omega)]
      cases hs : slotAt t.main_table (b + 1) with
      | some e => rfl
      | none => exact ihf (b + 1) (by omega) (by omega)

/-- The traversal position of the first live slot at or after position `p`
(`false` = primary phase at that index, `true` = collision phase); `none`
plays the role of the null `value_ptr` of `end()`. -/
def next_live_ptr (t : Table) (p : Bool × Nat) : Option (Bool × Nat) :=
  match p with
  | (false, b) =>
    match first_live_main t t.bucket_count b with
    | some i => some (false, i)
    | none => (first_live_coll t t.bucket_count 0).map (fun x => (true, x))
  | (true, i) => (first_live_coll t t.bucket_count i).map (fun x => (true, x))

/-- A live primary slot is its own next live position. -/
theorem next_live_ptr_here {t : Table} {b : Nat} {x : MainEntry}
    (hb : b < t.bucket_count) (hs : slotAt t.main_table b = some x) :
    next_live_ptr t (false, b) = some (false, b) := by
  simp only [next_live_ptr]
  rw [first_live_main_eval hb, hs]

/-- A live collision slot is its own next live position. -/
theorem next_live_ptr_coll_here {t : Table} {i : Nat} {x : CollisionEntry}
    (hi : i < t.bucket_count) (hs : slotAt t.collision_table i = some x) :
    next_live_ptr t (true, i) = some (true, i) := by
  simp only [next_live_ptr]
  rw [first_live_coll_eval hi, hs]
  rfl

/-- After clearing primary slot `b` (everything else unchanged), the next
live position from `b` is what the main phase of `operator++` computed on the
old table. -/
theorem next_live_ptr_main_adv {t t2 : Table}
    (hcap : t2.bucket_count = t.bucket_count) {b : Nat}
    (hb : b < t.bucket_count)
    (hdead : slotAt t2.main_table b = none)
    (hagree : ∀ x, b + 1 ≤ x → slotAt t2.main_table x = slotAt t.main_table x)
    (hcagree : ∀ x, slotAt t2.collision_table x = slotAt t.collision_table x) :
    next_live_ptr t2 (false, b) = (main_advance t t.bucket_count b).value_ptr := by
  rw [main_advance_ptr t.bucket_count b hb (by omega)]
  simp only [next_live_ptr]
  have h1 : first_live_main t2 t2.bucket_count b =
      first_live_main t t.bucket_count (b + 1) := by
    rw [first_live_main_eval (show b < t2.bucket_count by rw [hcap]; exact hb)]
    rw [hdead]
    rw [flm_congr hcap hagree (t2.bucket_count - 1) (b + 1) (Nat.le_refl _)]
    rw [hcap]
    exact flm_fuel (t.bucket_count - 1) t.bucket_count (b + 1) (by omega) (by omega)
  have h2 : first_live_coll t2 t2.bucket_count 0 =
      first_live_coll t t.bucket_count 0 := by
    rw [flc_congr hcap (j := 0) (fun x _ => hcagree x) t2.bucket_count 0
      (Nat.le_refl 0)]
    rw [hcap]
  rw [h1, h2]

/-- After clearing collision slot `ci` (later collision slots unchanged), the
next live position from `ci` is what the collision phase of `operator++`
computed on the old table. -/
theorem next_live_ptr_coll_adv {t t2 : Table}
    (hcap : t2.bucket_count = t.bucket_count) {ci : Nat}
    (hci : ci < t.bucket_count)
    (hdead : slotAt t2.collision_table ci = none)
    (hagree : ∀ x, ci + 1 ≤ x →
      slotAt t2.collision_table x = slotAt t.collision_table x)
    (bi : Option Nat) :
    next_live_ptr t2 (true, ci) = (coll_advance t bi t.bucket_count ci).value_ptr := by
  rw [coll_advance_ptr bi t.bucket_count ci hci]
  simp only [next_live_ptr]
  have h1 : first_live_coll t2 t2.bucket_count ci =
      first_live_coll t t.bucket_count (ci + 1) := by
    rw [first_live_coll_eval (show ci < t2.bucket_count by rw [hcap]; exact hci)]
    rw [hdead]
    rw [flc_congr hcap hagree (t2.bucket_count - 1) (ci + 1) (Nat.le_refl _)]
    rw [hcap]
    exact flc_fuel (t.bucket_count - 1) t.bucket_count (ci + 1) (by omega) (by omega)
  rw [h1]


/-- Component form of `next_live_ptr_here` for an explicitly assembled
table. -/
theorem nlp_here {cap cnt : Nat} {m2 : List (Option MainEntry)}
    {c2 : List (Option CollisionEntry)} {b : Nat} {x : MainEntry}
    (hb : b < cap) (hs : slotAt m2 b = some x) :
    next_live_ptr ⟨cap, cnt, m2, c2⟩ (false, b) = some (false, b) :=
  @next_live_ptr_here ⟨cap, cnt, m2, c2⟩ b x hb hs

/-- Component form of `next_live_ptr_coll_here` for an explicitly assembled
table. -/
theorem nlp_coll_here {cap cnt : Nat} {m2 : List (Option MainEntry)}
    {c2 : List (Option CollisionEntry)} {i : Nat} {x : CollisionEntry}
    (hi : i < cap) (hs : slotAt c2 i = some x) :
    next_live_ptr ⟨cap, cnt, m2, c2⟩ (true, i) = some (true, i) :=
  @next_live_ptr_coll_here ⟨cap, cnt, m2, c2⟩ i x hi hs

/-- Component form of `next_live_ptr_main_adv` for an explicitly assembled
table of the same capacity. -/
theorem nlp_main_adv {t : Table} {cnt : Nat} {m2 : List (Option MainEntry)}
    {c2 : List (Option CollisionEntry)} {b : Nat}
    (hb : b < t.bucket_count) (hdead : slotAt m2 b = none)
    (hagree : ∀ x, b + 1 ≤ x → slotAt m2 x = slotAt t.main_table x)
    (hcagree : ∀ x, slotAt c2 x = slotAt t.collision_table x) :
    next_live_ptr ⟨t.bucket_count, cnt, m2, c2⟩ (false, b) =
      (main_advance t t.bucket_count b).value_ptr :=
  @next_live_ptr_main_adv t ⟨t.bucket_count, cnt, m2, c2⟩ rfl b hb hdead
    hagree hcagree

/-- Component form of `next_live_ptr_coll_adv` for an explicitly assembled
table of the same capacity. -/
theorem nlp_coll_adv {t : Table} {cnt : Nat} {m2 : List (Option MainEntry)}
    {c2 : List (Option CollisionEntry)} {ci : Nat}
    (hci : ci < t.bucket_count) (hdead : slotAt c2 ci = none)
    (hagree : ∀ x, ci + 1 ≤ x →
      slotAt c2 x = slotAt t.collision_table x)
    (bi : Option Nat) :
    next_live_ptr ⟨t.bucket_count, cnt, m2, c2⟩ (true, ci) =
      (coll_advance t bi t.bucket_count ci).value_ptr :=
  @next_live_ptr_coll_adv t ⟨t.bucket_count, cnt, m2, c2⟩ rfl ci hci hdead
    hagree bi

/-- The cursor returned by `remove(iterator)` points at the first live slot
at or after the removed position in the updated table (with `none` for
`end()`), covering the relocation cases. -/
theorem remove_next_ptr {hash : Nat → Nat} {t : Table} {it : Iter}
    {p : Bool × Nat} (hwf : WF hash t) (hv : validIter t it)
    (hp : it.value_ptr = some p) :
    (remove t it).2.value_ptr = next_live_ptr (remove t it).1 p := by
  obtain ⟨bi, ci, vp⟩ := it
  cases ci with
  | none =>
    cases bi with
    | none => exact absurd hv (by simp [validIter])
    | some b =>
      obtain ⟨hvp, e, he⟩ : vp = some (false, b) ∧
          ∃ e, slotAt t.main_table b = some e := hv
      subst hvp
      have hpeq : p = (false, b) := (Option.some.inj hp).symm
      subst hpeq
      have hc : t.bucket_count ≠ 0 := cap_ne_zero_of_main hwf he
      have hcpos : 0 < t.bucket_count := by omega
      obtain ⟨j, hj⟩ : ∃ j, t.bucket_count = 2 ^ j := hwf.pow2.resolve_left hc
      have hblen : b < t.main_table.length := slotAt_lt_length he
      have hblt : b < t.bucket_count := by rwa [hwf.mainLen] at hblen
      by_cases hch : e.chain_length = 0
      · -- chain 0: the slot is cleared and the advanced cursor is returned
        have hrem : remove t ⟨some b, none, some (false, b)⟩ =
            (⟨t.bucket_count, t.element_count - 1, t.main_table.set b none,
              t.collision_table⟩,
             iterNext t ⟨some b, none, some (false, b)⟩) := by
          simp only [remove, Option.getD_some, he, hch]
          simp
        rw [hrem]
        have hitn : iterNext t ⟨some b, none, some (false, b)⟩ =
            main_advance t t.bucket_count b := rfl
        rw [hitn]
        have h2 : next_live_ptr
            (⟨t.bucket_count, t.element_count - 1, t.main_table.set b none,
              t.collision_table⟩ : Table) (false, b) =
            (main_advance t t.bucket_count b).value_ptr :=
          nlp_main_adv hblt (slotAt_set_self none hblen)
            (fun x hx => slotAt_set_ne none (by omega)) (fun x => rfl)
        exact h2.symm
      · -- non-empty chain: the tail entry moves into the primary slot
        obtain ⟨cl, hcl⟩ : ∃ cl, e.chain_length = cl + 1 :=
          ⟨e.chain_length - 1, by omega⟩
        obtain ⟨ct, hct0, hctown⟩ := hwf.tailOwn b e he hch
        have hct0cl : slotAt t.collision_table ((b + cl) % t.bucket_count) =
            some ct := by
          rw [hcl] at hct0
          simpa using hct0
        have hctm : slotAt t.collision_table (mask t.bucket_count (b + cl)) =
            some ct := by
          rw [mask_step hj]
          exact hct0cl
        have hcl2 : e.chain_length - 1 = cl := by omega
        have hrem : remove t ⟨some b, none, some (false, b)⟩ =
            (⟨t.bucket_count, t.element_count - 1,
              t.main_table.set b (some ⟨ct.key, ct.value,
                shrink_chain
                  (t.collision_table.set (mask t.bucket_count (b + cl)) none)
                  t.bucket_count b cl⟩),
              t.collision_table.set (mask t.bucket_count (b + cl)) none⟩,
             ⟨some b, none, some (false, b)⟩) := by
          simp only [remove, Option.getD_some, he, if_pos hch, hcl2, hctm]
        rw [hrem]
        have h2 : next_live_ptr
            (⟨t.bucket_count, t.element_count - 1,
              t.main_table.set b (some ⟨ct.key, ct.value,
                shrink_chain
                  (t.collision_table.set (mask t.bucket_count (b + cl)) none)
                  t.bucket_count b cl⟩),
              t.collision_table.set (mask t.bucket_count (b + cl)) none⟩ :
              Table) (false, b) = some (false, b) :=
          nlp_here hblt (slotAt_set_self _ hblen)
        exact h2.symm
  | some ci =>
    obtain ⟨hvp, c0, hc0, hbi⟩ : vp = some (true, ci) ∧
        ∃ c, slotAt t.collision_table ci = some c ∧
          (bi = none ∨ bi = some c.main_index) := hv
    subst hvp
    have hpeq : p = (true, ci) := (Option.some.inj hp).symm
    subst hpeq
    obtain ⟨hmask0, e, he, o0, ho0, hio0⟩ := hwf.ownerOf ci c0 hc0
    have hc : t.bucket_count ≠ 0 := cap_ne_zero_of_main hwf he
    have hcpos : 0 < t.bucket_count := by omega
    obtain ⟨j, hj⟩ : ∃ j, t.bucket_count = 2 ^ j := hwf.pow2.resolve_left hc
    have hch : e.chain_length ≠ 0 := by omega
    obtain ⟨cl, hcl⟩ : ∃ cl, e.chain_length = cl + 1 := ⟨e.chain_length - 1, by omega⟩
    have hcl2 : e.chain_length - 1 = cl := by omega
    obtain ⟨lastc, hlast0, hlastown⟩ := hwf.tailOwn c0.main_index e he hch
    have hlastcl : slotAt t.collision_table
        ((c0.main_index + cl) % t.bucket_count) = some lastc := by
      rw [hcl] at hlast0
      simpa using hlast0
    have hlastm : slotAt t.collision_table
        (mask t.bucket_count (c0.main_index + cl)) = some lastc := by
      rw [mask_step hj]
      exact hlastcl
    have hbgetD : bi.getD c0.main_index = c0.main_index := by
      rcases hbi with hbi | hbi <;> subst hbi <;> simp
    have hcilen : ci < t.collision_table.length := slotAt_lt_length hc0
    have hcilt : ci < t.bucket_count := by rwa [hwf.collLen] at hcilen
    by_cases hlc : mask t.bucket_count (c0.main_index + cl) = ci
    · -- the removed collision slot is the chain tail: advance, then clear
      have hrem : remove t ⟨bi, some ci, some (true, ci)⟩ =
          (⟨t.bucket_count, t.element_count - 1,
            t.main_table.set c0.main_index (some ⟨e.key, e.value,
              shrink_chain
                (t.collision_table.set
                  (mask t.bucket_count (c0.main_index + cl)) none)
                t.bucket_count c0.main_index cl⟩),
            t.collision_table.set
              (mask t.bucket_count (c0.main_index + cl)) none⟩,
           iterNext t ⟨bi, some ci, some (true, ci)⟩) := by
        simp only [remove, hc0, Option.elim_some, hbgetD, he, hcl2, hlastm,
          if_pos hlc]
      rw [hrem]
      have hitn : iterNext t ⟨bi, some ci, some (true, ci)⟩ =
          coll_advance t bi t.bucket_count ci := rfl
      rw [hitn]
      have hdead : slotAt (t.collision_table.set
          (mask t.bucket_count (c0.main_index + cl)) none) ci = none := by
        rw [hlc]
        exact slotAt_set_self none hcilen
      have hagr : ∀ x, ci + 1 ≤ x → slotAt (t.collision_table.set
          (mask t.bucket_count (c0.main_index + cl)) none) x =
          slotAt t.collision_table x := by
        intro x hx
        rw [hlc]
        exact slotAt_set_ne none (by omega)
      have h2 : next_live_ptr
          (⟨t.bucket_count, t.element_count - 1,
            t.main_table.set c0.main_index (some ⟨e.key, e.value,
              shrink_chain
                (t.collision_table.set
                  (mask t.bucket_count (c0.main_index + cl)) none)
                t.bucket_count c0.main_index cl⟩),
            t.collision_table.set
              (mask t.bucket_count (c0.main_index + cl)) none⟩ : Table)
          (true, ci) = (coll_advance t bi t.bucket_count ci).value_ptr :=
        nlp_coll_adv hcilt hdead hagr bi
      exact h2.symm
    · -- interior removal: the tail entry moves into the removed slot
      have hrem : remove t ⟨bi, some ci, some (true, ci)⟩ =
          (⟨t.bucket_count, t.element_count - 1,
            t.main_table.set c0.main_index (some ⟨e.key, e.value,
              shrink_chain
                ((t.collision_table.set ci
                    (some ⟨lastc.key, lastc.value, c0.main_index⟩)).set
                  (mask t.bucket_count (c0.main_index + cl)) none)
                t.bucket_count c0.main_index cl⟩),
            (t.collision_table.set ci
                (some ⟨lastc.key, lastc.value, c0.main_index⟩)).set
              (mask t.bucket_count (c0.main_index + cl)) none⟩,
           ⟨bi, some ci, some (true, ci)⟩) := by
        simp only [remove, hc0, Option.elim_some, hbgetD, he, hcl2, hlastm,
          if_neg hlc]
      rw [hrem]
      have hslot2 : slotAt ((t.collision_table.set ci
          (some ⟨lastc.key, lastc.value, c0.main_index⟩)).set
            (mask t.bucket_count (c0.main_index + cl)) none) ci =
          some ⟨lastc.key, lastc.value, c0.main_index⟩ := by
        rw [slotAt_set_ne none hlc]
        exact slotAt_set_self _ hcilen
      have h2 : next_live_ptr
          (⟨t.bucket_count, t.element_count - 1,
            t.main_table.set c0.main_index (some ⟨e.key, e.value,
              shrink_chain
                ((t.collision_table.set ci
                    (some ⟨lastc.key, lastc.value, c0.main_index⟩)).set
                  (mask t.bucket_count (c0.main_index + cl)) none)
                t.bucket_count c0.main_index cl⟩),
            (t.collision_table.set ci
                (some ⟨lastc.key, lastc.value, c0.main_index⟩)).set
              (mask t.bucket_count (c0.main_index + cl)) none⟩ : Table)
          (true, ci) = some (true, ci) :=
        nlp_coll_here hcilt hslot2
      exact h2.symm

/-- C5.  Erase by cursor: removing through a valid cursor deletes exactly the
entry the cursor points at, decrements `size()` by one, and returns a cursor
whose pointer is the next live element in traversal order (primary slots in
ascending index, then collision slots in ascending index) at or after the
removed position — in the relocation cases that position itself, now holding
the relocated former tail entry. -/
theorem C5_erase_cursor {hash : Nat → Nat} {t : Table} {it : Iter}
    {p : Bool × Nat} (hwf : WF hash t) (hv : validIter t it)
    (hp : it.value_ptr = some p) :
    WF hash (remove t it).1 ∧
    (remove t it).1.bucket_count = t.bucket_count ∧
    (remove t it).1.element_count = t.element_count - 1 ∧
    0 < t.element_count ∧
    (old_entries t).Perm
      ((iterKey t it, iterVal t it) :: old_entries (remove t it).1) ∧
    (remove t it).2.value_ptr = next_live_ptr (remove t it).1 p := by
  obtain ⟨h1, h2, h3, h4, h5⟩ := remove_spec hwf hv
  exact ⟨h1, h2, h3, h4, h5, remove_next_ptr hwf hv hp⟩

/-- The table of the fifth witness run: three keys in bucket 0 (degenerate
hash), so erasing through the primary cursor relocates the chain tail. -/
def w5tab : Table :=
  match runOps degHash 100 empty_table (opsOf [(1, 11), (2, 12), (3, 13)]) with
  | .ok t => t
  | _ => empty_table

theorem C5_erase_cursor_witness :
    (WF degHash w5tab ∧ validIter w5tab ⟨some 0, none, some (false, 0)⟩ ∧
      (⟨some 0, none, some (false, 0)⟩ : Iter).value_ptr = some (false, 0)) ∧
    (WF degHash (remove w5tab ⟨some 0, none, some (false, 0)⟩).1 ∧
      (remove w5tab ⟨some 0, none, some (false, 0)⟩).1.bucket_count =
        w5tab.bucket_count ∧
      (remove w5tab ⟨some 0, none, some (false, 0)⟩).1.element_count =
        w5tab.element_count - 1 ∧
      0 < w5tab.element_count ∧
      (old_entries w5tab).Perm
        ((iterKey w5tab ⟨some 0, none, some (false, 0)⟩,
          iterVal w5tab ⟨some 0, none, some (false, 0)⟩) ::
          old_entries (remove w5tab ⟨some 0, none, some (false, 0)⟩).1) ∧
      (remove w5tab ⟨some 0, none, some (false, 0)⟩).2.value_ptr =
        next_live_ptr (remove w5tab ⟨some 0, none, some (false, 0)⟩).1
          (false, 0)) :=
  ⟨⟨@runOps_wf degHash 100 (opsOf [(1, 11), (2, 12), (3, 13)]) empty_table
      w5tab (empty_wf degHash) (by rfl),
    ⟨rfl, ⟨1, 11, 2⟩, by rfl⟩, rfl⟩,
    @C5_erase_cursor degHash w5tab ⟨some 0, none, some (false, 0)⟩ (false, 0)
      (@runOps_wf degHash 100 (opsOf [(1, 11), (2, 12), (3, 13)]) empty_table
        w5tab (empty_wf degHash) (by rfl))
      ⟨rfl, ⟨1, 11, 2⟩, by rfl⟩ rfl⟩

end Turbokit
